import Mathlib

/-!
A shallow embedding of the computational core of the Project03_Pathfinding
repository: randomized Prim-style maze generation (`mazePrimsAlgorithm`) and
A* grid search (`startPathFind`), together with theorems about their
behaviour: the open-set selection order, the relaxation rule, the heuristic
formulas, neighbour validity, maze connectivity and the derivation of the
start/end coordinates.

Conventions of the embedding:
* JavaScript numbers holding grid coordinates and costs are embedded as
  `Int` (all arithmetic these functions perform on them is integral).
* The boolean grid of the maze generator is represented by the list of
  cells that are currently passages; `grid[x][y] === true` corresponds to
  membership of `(x, y)` in that list.
* `Math.random()` draws are supplied externally: the first cell by two
  seeds reduced modulo the grid dimensions, the frontier picks by a list
  of naturals each reduced modulo the current frontier length — exactly
  the ranges the source draws from uniformly.
* `while` loops are embedded with an explicit fuel parameter; the theorems
  below hold for every fuel value, in particular for any value large
  enough for the loop to reach its exit condition, which is how the
  source's (terminating) loop runs.
-/

namespace Pathfinding

/-- A coordinate on the grid (source type `Coord`). -/
structure Coord where
  x : Int
  y : Int
deriving DecidableEq, Repr

/-- A search node (source type `Node`): a coordinate annotated with
`gCost`, `hCost` and an optional back-pointer `parent` to the node it was
reached from. -/
inductive Node : Type where
  | mk (x y gCost hCost : Int) (parent : Option Node)

def Node.x : Node → Int
  | .mk x _ _ _ _ => x

def Node.y : Node → Int
  | .mk _ y _ _ _ => y

def Node.gCost : Node → Int
  | .mk _ _ g _ _ => g

def Node.hCost : Node → Int
  | .mk _ _ _ h _ => h

def Node.parent : Node → Option Node
  | .mk _ _ _ _ p => p

/-- Straight-step cost: the source constant `D = 10`. -/
def D : Int := 10

/-- Diagonal-step cost: the source computes
`D2 = Math.round(Math.sqrt(D ** 2 + D ** 2))`, which evaluates to `14`;
theorem `heuristic_formulas` below proves that the rounding indeed
yields `14`. -/
def D2 : Int := 14

/-- Source `getDiagonalDistance`: heuristic used when diagonal movement is
enabled; `end` is a component state, passed here explicitly as `endC`. -/
def getDiagonalDistance (endC : Coord) (node : Coord) : Int :=
  let dx := |node.x - endC.x|
  let dy := |node.y - endC.y|
  D * (dx + dy) + (D2 - 2 * D) * min dx dy

/-- Source `getManhattanDistance`: heuristic used when diagonal movement is
disabled. -/
def getManhattanDistance (endC : Coord) (node : Coord) : Int :=
  let dx := |node.x - endC.x|
  let dy := |node.y - endC.y|
  D * (dx + dy)

/-- The heuristic selection `diagonalMovement ? getDiagonalDistance(c) :
getManhattanDistance(c)`, which the source writes inline both when seeding
the open set and when relaxing a neighbour. The flag is the only selector:
no independent heuristic choice exists in the source. -/
def hCostOf (diagonalMovement : Bool) (endC : Coord) (c : Coord) : Int :=
  if diagonalMovement then getDiagonalDistance endC c else getManhattanDistance endC c

/-- Source `isWallTile`: whether some wall in the wall list has the given
coordinates. -/
def isWallTile (walls : List Coord) (x y : Int) : Bool :=
  walls.any (fun wall => wall.x == x && wall.y == y)

/-- Source `isClosedNode`: whether the closed list holds a node with the
coordinates of `node`. -/
def isClosedNode (node : Coord) (closedNodesLocal : List Node) : Bool :=
  closedNodesLocal.any (fun closedNode => closedNode.x == node.x && closedNode.y == node.y)

/-- The four straight offsets of `getValidNeighbors`, in source order. -/
def straight : List Coord :=
  [⟨-1, 0⟩, ⟨0, 1⟩, ⟨1, 0⟩, ⟨0, -1⟩]

/-- The four diagonal offsets of `getValidNeighbors`, in source order. -/
def diagonal : List Coord :=
  [⟨-1, 1⟩, ⟨-1, -1⟩, ⟨1, 1⟩, ⟨1, -1⟩]

/-- Source `getValidNeighbors`: offsets are applied to the node's
coordinates and the results filtered to those within bounds, not a wall
and not already closed. Component state (`width`, `height`, `walls`,
`diagonalMovement`) is passed explicitly. -/
def getValidNeighbors (width height : Int) (walls : List Coord)
    (diagonalMovement : Bool) (node : Node) (closedNodesLocal : List Node) : List Coord :=
  let directions := if diagonalMovement then straight ++ diagonal else straight
  (directions.map (fun direction => (⟨direction.x + node.x, direction.y + node.y⟩ : Coord))).filter
    (fun neighbor =>
      let withinBounds := decide (0 ≤ neighbor.x) && decide (neighbor.x < width)
        && decide (0 ≤ neighbor.y) && decide (neighbor.y < height)
      let notWall := !isWallTile walls neighbor.x neighbor.y
      let notClosed := !isClosedNode neighbor closedNodesLocal
      withinBounds && notWall && notClosed)

/-- The derived cost `fCost = gCost + hCost` (never stored in the source,
always recomputed from its parts). -/
def fCost (n : Node) : Int :=
  n.gCost + n.hCost

/-- The callback of the source's `openNodesLocal.reduce`: keep the current
item whenever its `fCost` is `<=` the running minimum's `fCost`. -/
def reduceMin (minItem currentItem : Node) : Node :=
  if fCost currentItem ≤ fCost minItem then currentItem else minItem

/-- The source's `openNodesLocal.reduce(...)` selection of the node to
expand; `none` exactly when the open list is empty, which is the loop's
exit condition. -/
def findMin : List Node → Option Node
  | [] => none
  | minItem :: rest => some (rest.foldl reduceMin minItem)

/-- The body of the source's `for (const neighbor of neighbors)` loop:
compute the tentative `gCost` (diagonal step iff both coordinates differ)
and the heuristic `hCost`, then insert the neighbour into the open list if
absent, or replace its entry when the tentative cost is `<=` the recorded
one. -/
def relaxNeighbor (currentNode : Node) (diagonalMovement : Bool) (endC : Coord)
    (openNodesLocal : List Node) (neighbor : Coord) : List Node :=
  let gCost := currentNode.gCost +
    (if neighbor.x ≠ currentNode.x ∧ neighbor.y ≠ currentNode.y then D2 else D)
  let hCost := hCostOf diagonalMovement endC neighbor
  let updatedNeighbor := Node.mk neighbor.x neighbor.y gCost hCost (some currentNode)
  match openNodesLocal.findIdx? (fun node => node.x == neighbor.x && node.y == neighbor.y) with
  | none => openNodesLocal ++ [updatedNeighbor]
  | some openNodeIndex =>
    match openNodesLocal.get? openNodeIndex with
    | some prev =>
      if gCost ≤ prev.gCost then openNodesLocal.set openNodeIndex updatedNeighbor
      else openNodesLocal
    | none => openNodesLocal

/-- The source's `while (openNodesLocal.length > 0)` loop: pop the
`findMin` node, close it, break when it is the end, otherwise relax all
valid neighbours and count the iteration. Returns the final closed list
and the iteration count. -/
def astarLoop (width height : Int) (walls : List Coord) (endC : Coord)
    (diagonalMovement : Bool) :
    Nat → List Node → List Node → Nat → List Node × Nat
  | 0, _, closedNodesLocal, count => (closedNodesLocal, count)
  | fuel + 1, openNodesLocal, closedNodesLocal, count =>
    match findMin openNodesLocal with
    | none => (closedNodesLocal, count)
    | some currentNode =>
      let opens := openNodesLocal.filter
        (fun node => !(node.x == currentNode.x && node.y == currentNode.y))
      let closeds := closedNodesLocal ++ [currentNode]
      if currentNode.x == endC.x && currentNode.y == endC.y then
        (closeds, count)
      else
        let neighbors := getValidNeighbors width height walls diagonalMovement currentNode closeds
        let opens' := neighbors.foldl (relaxNeighbor currentNode diagonalMovement endC) opens
        astarLoop width height walls endC diagonalMovement fuel opens' closeds (count + 1)

/-- The source's `while (current) { path.push(...); current = current.parent }`:
the coordinates of a node chain from a node back to its root, end first. -/
def chainAux : Node → List Coord
  | Node.mk x y _ _ none => [⟨x, y⟩]
  | Node.mk x y _ _ (some p) => ⟨x, y⟩ :: chainAux p

/-- The outcome of one `startPathFind` invocation from a freshly reset
component: the traced path (start to end order), the `distance` state (set
from the end node's `gCost` only when the end was closed, otherwise left
at its initial value `0`), the iteration counter, and the final closed
list. -/
structure SearchResult where
  nodePath : List Coord
  distance : Int
  iterations : Nat
  closedNodes : List Node

/-- Source `startPathFind`: seed the open set with the start node at
`gCost = 0`, run the main loop, then trace the path by locating the end in
the closed list and following parent pointers, reversing at the end. No
error is ever raised: an unreachable end merely leaves the path empty and
`distance` untouched at `0`. -/
def startPathFind (width height : Int) (walls : List Coord) (startC endC : Coord)
    (diagonalMovement : Bool) (fuel : Nat) : SearchResult :=
  let startNode : Node := Node.mk startC.x startC.y 0 (hCostOf diagonalMovement endC startC) none
  let out := astarLoop width height walls endC diagonalMovement fuel [startNode] [] 0
  let closedNodesLocal := out.1
  let count := out.2
  let current := closedNodesLocal.find? (fun node => node.x == endC.x && node.y == endC.y)
  let distance : Int :=
    match current with
    | some n => n.gCost
    | none => 0
  let path : List Coord :=
    match current with
    | some n => chainAux n
    | none => []
  { nodePath := path.reverse, distance := distance, iterations := count,
    closedNodes := closedNodesLocal }

/-- The four direction offsets of the generator's `getCells` (left, down,
right, up), in source order. -/
def directions : List Coord :=
  [⟨-1, 0⟩, ⟨0, 1⟩, ⟨1, 0⟩, ⟨0, -1⟩]

/-- The four cells adjacent to `coord`, before bounds clipping. -/
def neighbors4 (coord : Coord) : List Coord :=
  directions.map (fun direction => ⟨direction.x + coord.x, direction.y + coord.y⟩)

/-- Source `getCells`: the 4-neighbourhood of `coord` clipped to the grid
bounds. -/
def getCells (width height : Int) (coord : Coord) : List Coord :=
  (neighbors4 coord).filter
    (fun c => decide (0 ≤ c.x) && decide (0 ≤ c.y) && decide (c.x < width) && decide (c.y < height))

/-- The generator's grid lookup `grid[c.x][c.y]`, with the grid represented
by the list of cells currently marked as passages. An out-of-bounds read
of the source grid yields `undefined`, which is falsy, matching the
membership test here (passages are only ever in-bounds cells). -/
def isPassage (passages : List Coord) (c : Coord) : Bool :=
  passages.any (fun p => p.x == c.x && p.y == c.y)

/-- One iteration of the generator's `while (wallList.length > 0)` loop
body, for a picked index `idx` (the source picks
`Math.floor(Math.random() * wallList.length)`): count the passages around
the picked wall; if exactly one, convert it to a passage and append its
neighbours that are still walls; finally splice the picked index out.
The source appends before splicing, so the splice is taken on the extended
list; the index always points below the original length. -/
def primsStep (width height : Int) (passages wallList : List Coord) (idx : Nat) :
    List Coord × List Coord :=
  match wallList.get? idx with
  | none => (passages, wallList)
  | some randomWall =>
    let wallSurroundings := getCells width height randomWall
    let count := wallSurroundings.countP (fun cell => isPassage passages cell)
    if count = 1 then
      let passages' := randomWall :: passages
      let extended := wallList ++ wallSurroundings.filter (fun cell => !isPassage passages' cell)
      (passages', extended.eraseIdx idx)
    else
      (passages, wallList.eraseIdx idx)

/-- The generator's main loop: while the frontier list is non-empty, run
`primsStep` at the externally supplied random index (reduced modulo the
frontier length, the range the source draws from); `fuel` bounds the
number of iterations. Returns the final passage set. -/
def primsLoop (width height : Int) : Nat → List Coord → List Coord → List Nat → List Coord
  | 0, passages, _, _ => passages
  | fuel + 1, passages, wallList, idxs =>
    match wallList with
    | [] => passages
    | _ :: _ =>
      let idx := idxs.headD 0 % wallList.length
      let pw := primsStep width height passages wallList idx
      primsLoop width height fuel pw.1 pw.2 idxs.tail

/-- The randomly chosen initial cell: the source draws
`Math.floor(Math.random() * width)` and `... * height`, i.e. uniform
values in `[0, width)` and `[0, height)`, modelled by two seeds reduced
modulo the dimensions. -/
def firstCellOf (width height : Int) (rx ry : Nat) : Coord :=
  ⟨(rx % width.toNat : Nat), (ry % height.toNat : Nat)⟩

/-- The final passage set of one generator run. -/
def passagesOf (width height : Int) (rx ry : Nat) (idxs : List Nat) (fuel : Nat) : List Coord :=
  let firstCell := firstCellOf width height rx ry
  primsLoop width height fuel [firstCell] (getCells width height firstCell) idxs

/-- The generator's wall collection loop: every in-bounds cell not marked
as a passage, scanned x-major then y, exactly as the source's nested
`for` loops over `grid.length` and `grid[0].length`. -/
def finalWallListOf (width height : Int) (passages : List Coord) : List Coord :=
  ((List.range width.toNat).map (fun x : Nat =>
    (List.range height.toNat).filterMap (fun y : Nat =>
      if isPassage passages ⟨(x : Int), (y : Int)⟩ then none
      else some (⟨(x : Int), (y : Int)⟩ : Coord)))).flatten

/-- The body of the source's start/end derivation loop, recursing on the
remaining iteration count `rem` with current index `i`: while not both
found, test `grid[0][i]` for the start and `grid[width-1-i][height-1]` for
the end, each guarded by its own found-flag; break once both are found.
Reads of `grid[0][i]` with `i` beyond the column height yield `undefined`
(falsy) in the source, matching `isPassage` returning `false` there. -/
def scanGo (width height : Int) (passages : List Coord) :
    Nat → Nat → Bool → Bool → Coord → Coord → Coord × Coord
  | 0, _, _, _, s, e => (s, e)
  | rem + 1, i, startFound, endFound, s, e =>
    if startFound && endFound then (s, e)
    else
      let sHit := !startFound && isPassage passages ⟨0, (i : Int)⟩
      let s' := if sHit then (⟨0, (i : Int)⟩ : Coord) else s
      let eHit := !endFound && isPassage passages ⟨width - 1 - (i : Int), height - 1⟩
      let e' := if eHit then (⟨width - 1 - (i : Int), height - 1⟩ : Coord) else e
      scanGo width height passages rem (i + 1) (startFound || sHit) (endFound || eHit) s' e'

/-- The source's start/end derivation: the loop runs
`for (let i = 0; i < grid.length; i++)`, i.e. the iteration bound is
`grid.length`, the grid WIDTH; both endpoints default to `(0, 0)`. -/
def scanStartEnd (width height : Int) (passages : List Coord) : Coord × Coord :=
  scanGo width height passages width.toNat 0 false false ⟨0, 0⟩ ⟨0, 0⟩

/-- Modelled from the spec: the lockstep first-hit scan of the start/end
derivation, parameterized by its iteration bound so that the spec's stated
bound (the grid height) can be compared with the bound the code uses (the
grid width). Start is the first `i < bound` with `(0, i)` a passage, end
the first `i < bound` with `(width-1-i, height-1)` a passage; each
defaults to `(0, 0)`. The lockstep coupling and the stop-once-both-found
break do not affect which cells are selected, since each flag freezes its
own result. -/
def scanSpec (width height : Int) (bound : Nat) (passages : List Coord) : Coord × Coord :=
  ((match (List.range bound).find? (fun j : Nat => isPassage passages ⟨0, (j : Int)⟩) with
    | some j => (⟨0, (j : Int)⟩ : Coord)
    | none => ⟨0, 0⟩),
   (match (List.range bound).find? (fun j : Nat =>
       isPassage passages ⟨width - 1 - (j : Int), height - 1⟩) with
    | some j => (⟨width - 1 - (j : Int), height - 1⟩ : Coord)
    | none => ⟨0, 0⟩))

/-- The record returned by `mazePrimsAlgorithm`: the wall coordinates and
the derived start/end pair (source fields `finalWallList`, `start`,
`end`; the last is a Lean keyword and is named `endCoord` here). -/
structure MazeResult where
  finalWallList : List Coord
  start : Coord
  endCoord : Coord
deriving DecidableEq, Repr

/-- Source `mazePrimsAlgorithm` for positive dimensions: seed a random
first cell, run the frontier loop, collect the walls and derive the
start/end pair. -/
def mazePrimsAlgorithm (width height : Int) (rx ry : Nat) (idxs : List Nat)
    (fuel : Nat) : MazeResult :=
  let passages := passagesOf width height rx ry idxs fuel
  let se := scanStartEnd width height passages
  { finalWallList := finalWallListOf width height passages, start := se.1, endCoord := se.2 }

/-- The ways a generator call can end. `typeError` and `rangeError` model
the JavaScript exceptions the source actually throws on degenerate
dimensions; `invalidDimensions` is modelled from the spec: the
`InvalidDimensions` rejection the spec prescribes, which the theorems
below show the code never produces. -/
inductive GenError : Type where
  | typeError
  | rangeError
  | invalidDimensions
deriving DecidableEq, Repr

/-- The wall list the source produces when `width > 0` and `height = 0`:
`Array(0).fill(false)` makes every column empty, yet the assignment
`grid[firstCell.x][0] = true` extends that column to length 1, so the
wall-collection loop (bounded by `grid[0].length`) scans row 0 exactly
when the first cell landed in column 0, collecting every other cell of
that row; otherwise it scans nothing. -/
def heightZeroWalls (width : Int) (rx : Nat) : List Coord :=
  if rx % width.toNat = 0 then
    (List.range (width.toNat - 1)).map (fun k => ⟨((k + 1 : Nat) : Int), 0⟩)
  else []

/-- A full generator call including the behaviour on non-positive
dimensions, which the source does not guard against:
* `width ≤ 0`: `Array.from({length: width})` yields an empty grid (a
  negative length is coerced to 0), and marking the first cell then
  throws `TypeError` because `grid[firstCell.x]` is `undefined`;
* `width > 0`, `height < 0`: `Array(height)` throws `RangeError` while
  the grid is built;
* `width > 0`, `height = 0`: no exception — the run returns a degenerate
  result with both endpoints `(0, 0)` (see `heightZeroWalls`);
* otherwise the normal algorithm runs. -/
def mazePrimsRun (width height : Int) (rx ry : Nat) (idxs : List Nat)
    (fuel : Nat) : Except GenError MazeResult :=
  if width ≤ 0 then .error .typeError
  else if height < 0 then .error .rangeError
  else if height = 0 then
    .ok { finalWallList := heightZeroWalls width rx, start := ⟨0, 0⟩, endCoord := ⟨0, 0⟩ }
  else .ok (mazePrimsAlgorithm width height rx ry idxs fuel)

/-- Source `handleWidthChange`: the width a user enters is clamped to
`[5, WIDTH]` with `WIDTH = 125` before it reaches any algorithm. -/
def handleWidthChange (value : Int) : Int :=
  max 5 (min 125 value)

/-- Source `handleHeightChange`: the height a user enters is clamped to
`[5, HEIGHT]` with `HEIGHT = 50` before it reaches any algorithm. -/
def handleHeightChange (value : Int) : Int :=
  max 5 (min 50 value)

/-- Membership of the grid rectangle `[0, width) × [0, height)`. -/
def InBounds (width height : Int) (c : Coord) : Prop :=
  0 ≤ c.x ∧ c.x < width ∧ 0 ≤ c.y ∧ c.y < height

instance (width height : Int) (c : Coord) : Decidable (InBounds width height c) := by
  unfold InBounds
  infer_instance

/-- Four-directional adjacency between grid cells. -/
def Adj (a b : Coord) : Prop :=
  b ∈ neighbors4 a

instance (a b : Coord) : Decidable (Adj a b) := by
  unfold Adj
  infer_instance

/-- Reachability through cells satisfying `pass`, by 4-directional steps.
The start cell is reached unconditionally (the generator marks it a
passage itself). -/
inductive Reach (pass : Coord → Prop) : Coord → Coord → Prop where
  | refl (a : Coord) : Reach pass a a
  | tail {a b c : Coord} : Reach pass a b → Adj b c → pass c → Reach pass a c

/-- Invariant of the generation loop's passage set: it contains the seed,
stays within bounds, and every member is reachable from the seed through
the set itself. -/
def PassGood (width height : Int) (seed : Coord) (passages : List Coord) : Prop :=
  seed ∈ passages ∧ (∀ c ∈ passages, InBounds width height c)
    ∧ ∀ c ∈ passages, Reach (fun d => d ∈ passages) seed c

/-- Invariant of the generation loop's frontier list: all members are
within bounds. -/
def WallsGood (width height : Int) (wallList : List Coord) : Prop :=
  ∀ c ∈ wallList, InBounds width height c

/-- The generator's main loop again, returning the full final state: the
passage set together with the remaining frontier list. The source's
`while (wallList.length > 0)` loop exits exactly when the frontier list is
empty, so a completed run — the only kind the source ever returns a maze
from — is a run whose final frontier component is `[]`. -/
def primsLoopPair (width height : Int) :
    Nat → List Coord → List Coord → List Nat → List Coord × List Coord
  | 0, passages, wallList, _ => (passages, wallList)
  | fuel + 1, passages, wallList, idxs =>
    match wallList with
    | [] => (passages, [])
    | _ :: _ =>
      let idx := idxs.headD 0 % wallList.length
      let pw := primsStep width height passages wallList idx
      primsLoopPair width height fuel pw.1 pw.2 idxs.tail

/-- Indicator used to decompose the passage count around a cell: `1` when
the cell exists on the grid and is a passage, `0` otherwise. -/
def passCnt (width height : Int) (passages : List Coord) (c : Coord) : Nat :=
  if InBounds width height c ∧ isPassage passages c = true then 1 else 0

/-- The structural property of every completed generation run: no
in-bounds wall cell has exactly one passage among its clipped
4-neighbours (a frontier cell popped with exactly one passage neighbour
always converts, and every such wall is still waiting in the frontier
until the loop ends). -/
def Star (width height : Int) (passages : List Coord) : Prop :=
  ∀ z : Coord, InBounds width height z → isPassage passages z = false →
    (getCells width height z).countP (fun c => isPassage passages c) ≠ 1

/-- Invariant of the generation loop tying the grid to the frontier:
every in-bounds wall cell with exactly one passage neighbour is present
in the frontier list, so once the frontier is empty no such wall
remains. -/
def FrontierInv (width height : Int) (passages wallList : List Coord) : Prop :=
  ∀ z : Coord, InBounds width height z → isPassage passages z = false →
    (getCells width height z).countP (fun c => isPassage passages c) = 1 →
    z ∈ wallList

/-! Helper lemmas. -/

/-- The result of the open-set reduce is no costlier than any scanned
member, the initial accumulator included. -/
theorem fCost_foldl_reduceMin_le (rest : List Node) :
    ∀ minItem : Node, ∀ x ∈ minItem :: rest, fCost (rest.foldl reduceMin minItem) ≤ fCost x := by
  induction rest with
  | nil =>
    intro minItem x hx
    rw [List.mem_singleton] at hx
    subst hx
    exact le_refl _
  | cons c t ih =>
    intro minItem
    have hle_min : fCost (reduceMin minItem c) ≤ fCost minItem := by
      unfold reduceMin
      split
      · assumption
      · exact le_refl _
    have hle_c : fCost (reduceMin minItem c) ≤ fCost c := by
      unfold reduceMin
      split
      · exact le_refl _
      · omega
    intro x hx
    rcases List.mem_cons.mp hx with hx | hx
    · rw [hx]
      exact le_trans (ih (reduceMin minItem c) _ (List.mem_cons_self _ _)) hle_min
    rcases List.mem_cons.mp hx with hx | hx
    · rw [hx]
      exact le_trans (ih (reduceMin minItem c) _ (List.mem_cons_self _ _)) hle_c
    · exact ih (reduceMin minItem c) x (List.mem_cons_of_mem _ hx)

theorem foldl_reduceMin_decomp_aux (rest : List Node) :
    ∀ minItem : Node,
    ∃ l1 l2, minItem :: rest = l1 ++ (rest.foldl reduceMin minItem) :: l2
      ∧ (∀ x ∈ l1, fCost (rest.foldl reduceMin minItem) ≤ fCost x)
      ∧ (∀ x ∈ l2, fCost (rest.foldl reduceMin minItem) < fCost x) := by
  induction rest with
  | nil =>
    intro minItem
    exact ⟨[], [], rfl, by simp, by simp⟩
  | cons c t ih =>
    intro minItem
    have hfold : (c :: t).foldl reduceMin minItem = t.foldl reduceMin (reduceMin minItem c) :=
      rfl
    by_cases h : fCost c ≤ fCost minItem
    · have hred : reduceMin minItem c = c := by simp [reduceMin, h]
      obtain ⟨l1, l2, hdec, h1, h2⟩ := ih c
      have hle : fCost (t.foldl reduceMin c) ≤ fCost minItem :=
        le_trans (fCost_foldl_reduceMin_le t c c (List.mem_cons_self _ _)) h
      refine ⟨minItem :: l1, l2, ?_, ?_, ?_⟩
      · rw [hfold, hred, List.cons_append]
        exact congrArg (minItem :: ·) hdec
      · intro x hx
        rw [hfold, hred]
        rcases List.mem_cons.mp hx with hx | hx
        · subst hx; exact hle
        · exact h1 x hx
      · intro x hx
        rw [hfold, hred]
        exact h2 x hx
    · have hred : reduceMin minItem c = minItem := by simp [reduceMin, h]
      obtain ⟨l1, l2, hdec, h1, h2⟩ := ih minItem
      cases l1 with
      | nil =>
        simp only [List.nil_append] at hdec
        have hhead : t.foldl reduceMin minItem = minItem := ((List.cons.injEq _ _ _ _).mp hdec).1.symm
        have htail : l2 = t := ((List.cons.injEq _ _ _ _).mp hdec).2.symm
        refine ⟨[], c :: t, ?_, by simp, ?_⟩
        · rw [hfold, hred, hhead, List.nil_append]
        · intro x hx
          rw [hfold, hred, hhead]
          rcases List.mem_cons.mp hx with hx | hx
          · subst hx; omega
          · have hx2 := h2 x (htail ▸ hx)
            rw [hhead] at hx2
            exact hx2
      | cons b l1' =>
        simp only [List.cons_append] at hdec
        have hb : b = minItem := ((List.cons.injEq _ _ _ _).mp hdec).1.symm
        have ht : t = l1' ++ (t.foldl reduceMin minItem) :: l2 := ((List.cons.injEq _ _ _ _).mp hdec).2
        have hminle : fCost (t.foldl reduceMin minItem) ≤ fCost minItem := by
          have hx1 := h1 b (List.mem_cons_self _ _)
          rwa [hb] at hx1
        refine ⟨minItem :: c :: l1', l2, ?_, ?_, ?_⟩
        · rw [hfold, hred, List.cons_append, List.cons_append]
          exact congrArg (fun l => minItem :: c :: l) ht
        · intro x hx
          rw [hfold, hred]
          rcases List.mem_cons.mp hx with hx | hx
          · subst hx; exact hminle
          rcases List.mem_cons.mp hx with hx | hx
          · subst hx; omega
          · exact h1 x (List.mem_cons_of_mem _ hx)
        · intro x hx
          rw [hfold, hred]
          exact h2 x hx

/-- Decomposition of the open list around the member the reduce selects:
everything scanned before it has `fCost` at least the selected one's, and
everything scanned after it has strictly greater `fCost` — the selected
member is the last one attaining the minimum. -/
theorem foldl_reduceMin_decomp (minItem : Node) (rest : List Node) :
    ∃ l1 l2, minItem :: rest = l1 ++ (rest.foldl reduceMin minItem) :: l2
      ∧ (∀ x ∈ l1, fCost (rest.foldl reduceMin minItem) ≤ fCost x)
      ∧ (∀ x ∈ l2, fCost (rest.foldl reduceMin minItem) < fCost x) :=
  foldl_reduceMin_decomp_aux rest minItem

/-- The grid lookup is membership of the passage list. -/
theorem isPassage_iff_mem (passages : List Coord) (c : Coord) :
    isPassage passages c = true ↔ c ∈ passages := by
  simp only [isPassage, List.any_eq_true, Bool.and_eq_true, beq_iff_eq]
  constructor
  · rintro ⟨p, hp, hx, hy⟩
    have hpc : p = c := by
      cases p
      cases c
      simp_all
    rwa [hpc] at hp
  · intro hc
    exact ⟨c, hc, rfl, rfl⟩

/-- Reachability is monotone in the passage predicate. -/
theorem reach_mono {p q : Coord → Prop} (hpq : ∀ c, p c → q c) {a b : Coord}
    (h : Reach p a b) : Reach q a b := by
  induction h with
  | refl => exact Reach.refl _
  | tail _ hadj hpass ih => exact Reach.tail ih hadj (hpq _ hpass)

/-- Membership of the clipped neighbourhood. -/
theorem mem_getCells {width height : Int} {d c : Coord} :
    c ∈ getCells width height d ↔ c ∈ neighbors4 d ∧ InBounds width height c := by
  simp only [getCells, List.mem_filter, Bool.and_eq_true, decide_eq_true_eq, InBounds]
  tauto

/-- Four-directional adjacency is symmetric. -/
theorem adj_symm {a b : Coord} (h : Adj a b) : Adj b a := by
  cases a
  cases b
  simp only [Adj, neighbors4, directions, List.map_cons, List.map_nil, List.mem_cons,
    List.mem_singleton, List.not_mem_nil, or_false, Coord.mk.injEq] at h ⊢
  omega

/-- The conversion case of one generation-loop iteration. -/
theorem primsStep_eq_of_count_one {width height : Int} {passages wallList : List Coord}
    {idx : Nat} {wcell : Coord} (hget : wallList.get? idx = some wcell)
    (hcount : (getCells width height wcell).countP (fun cell => isPassage passages cell) = 1) :
    primsStep width height passages wallList idx =
      (wcell :: passages,
       wallList.eraseIdx idx ++
         (getCells width height wcell).filter
           (fun cell => !isPassage (wcell :: passages) cell)) := by
  have hlt : idx < wallList.length := by
    rcases List.get?_eq_some.mp hget with ⟨h, _⟩
    exact h
  simp only [primsStep, hget]
  rw [if_pos hcount, List.eraseIdx_append_of_lt_length hlt]

/-- The no-conversion case of one generation-loop iteration. -/
theorem primsStep_eq_of_count_ne {width height : Int} {passages wallList : List Coord}
    {idx : Nat} {wcell : Coord} (hget : wallList.get? idx = some wcell)
    (hcount : (getCells width height wcell).countP (fun cell => isPassage passages cell) ≠ 1) :
    primsStep width height passages wallList idx = (passages, wallList.eraseIdx idx) := by
  simp only [primsStep, hget]
  rw [if_neg hcount]

/-- One generation-loop iteration preserves both invariants. -/
theorem primsStep_preserves (width height : Int) (seed : Coord)
    (passages wallList : List Coord) (idx : Nat)
    (hp : PassGood width height seed passages) (hw : WallsGood width height wallList) :
    PassGood width height seed (primsStep width height passages wallList idx).1
    ∧ WallsGood width height (primsStep width height passages wallList idx).2 := by
  cases hget : wallList.get? idx with
  | none =>
    simp only [primsStep, hget]
    exact ⟨hp, hw⟩
  | some wcell =>
    have hwcell_in : InBounds width height wcell := hw wcell (List.get?_mem hget)
    by_cases hcount :
        (getCells width height wcell).countP (fun cell => isPassage passages cell) = 1
    · rw [primsStep_eq_of_count_one hget hcount]
      obtain ⟨hseed, hbound, hreach⟩ := hp
      have hpos : 0 < (getCells width height wcell).countP
          (fun cell => isPassage passages cell) := by
        rw [hcount]
        exact Nat.one_pos
      obtain ⟨p, hpmem, hppass⟩ := List.countP_pos_iff.mp hpos
      have hpP : p ∈ passages := (isPassage_iff_mem _ _).mp hppass
      have hadj_pw : Adj p wcell := adj_symm (mem_getCells.mp hpmem).1
      have hmono : ∀ d, d ∈ passages → d ∈ wcell :: passages :=
        fun d hd => List.mem_cons_of_mem _ hd
      refine ⟨⟨List.mem_cons_of_mem _ hseed, ?_, ?_⟩, ?_⟩
      · intro d hd
        rcases List.mem_cons.mp hd with hd | hd
        · rw [hd]
          exact hwcell_in
        · exact hbound d hd
      · intro d hd
        rcases List.mem_cons.mp hd with hd | hd
        · rw [hd]
          exact Reach.tail (reach_mono hmono (hreach p hpP)) hadj_pw (List.mem_cons_self _ _)
        · exact reach_mono hmono (hreach d hd)
      · intro d hd
        rcases List.mem_append.mp hd with hd | hd
        · exact hw d (List.eraseIdx_subset _ _ hd)
        · exact (mem_getCells.mp (List.mem_filter.mp hd).1).2
    · rw [primsStep_eq_of_count_ne hget hcount]
      exact ⟨hp, fun d hd => hw d (List.eraseIdx_subset _ _ hd)⟩

/-- The generation loop preserves the passage invariant for every fuel
value and index stream. -/
theorem primsLoop_preserves (width height : Int) (seed : Coord) :
    ∀ (fuel : Nat) (passages wallList : List Coord) (idxs : List Nat),
    PassGood width height seed passages → WallsGood width height wallList →
    PassGood width height seed (primsLoop width height fuel passages wallList idxs) := by
  intro fuel
  induction fuel with
  | zero =>
    intro passages wallList idxs hp _
    simpa [primsLoop] using hp
  | succ fuel ih =>
    intro passages wallList idxs hp hw
    cases wallList with
    | nil => simpa [primsLoop] using hp
    | cons a rest =>
      simp only [primsLoop]
      have hstep := primsStep_preserves width height seed passages (a :: rest)
        (idxs.headD 0 % (a :: rest).length) hp hw
      exact ih _ _ _ hstep.1 hstep.2

/-- Membership of the collected wall list: exactly the in-bounds cells
that are not passages. -/
theorem mem_finalWallListOf {width height : Int} {passages : List Coord} {c : Coord} :
    c ∈ finalWallListOf width height passages ↔
      InBounds width height c ∧ isPassage passages c = false := by
  obtain ⟨cx, cy⟩ := c
  constructor
  · intro hc
    obtain ⟨l, hl, hcl⟩ := List.mem_flatten.mp hc
    obtain ⟨x, hx, hlx⟩ := List.mem_map.mp hl
    rw [List.mem_range] at hx
    rw [← hlx] at hcl
    obtain ⟨y, hy, hsome⟩ := List.mem_filterMap.mp hcl
    rw [List.mem_range] at hy
    cases hpass : isPassage passages ⟨(x : Int), (y : Int)⟩ with
    | true =>
      rw [if_pos (by simp [hpass])] at hsome
      cases hsome
    | false =>
      rw [if_neg (by simp [hpass])] at hsome
      have hxy : (x : Int) = cx ∧ (y : Int) = cy := by
        simpa [Coord.mk.injEq] using hsome
      obtain ⟨hx1, hy1⟩ := hxy
      have hb : InBounds width height ⟨cx, cy⟩ := by
        show (0 : Int) ≤ cx ∧ cx < width ∧ (0 : Int) ≤ cy ∧ cy < height
        refine ⟨by omega, by omega, by omega, by omega⟩
      refine ⟨hb, ?_⟩
      show isPassage passages ⟨cx, cy⟩ = false
      rw [← hx1, ← hy1]
      exact hpass
  · intro h
    obtain ⟨hb, hpass⟩ := h
    have hx0 : (0 : Int) ≤ cx := hb.1
    have hxw : cx < width := hb.2.1
    have hy0 : (0 : Int) ≤ cy := hb.2.2.1
    have hyh : cy < height := hb.2.2.2
    have hcc : (⟨(cx.toNat : Int), (cy.toNat : Int)⟩ : Coord) = ⟨cx, cy⟩ := by
      simp only [Coord.mk.injEq]
      constructor <;> omega
    apply List.mem_flatten.mpr
    refine ⟨(List.range height.toNat).filterMap (fun y : Nat =>
        if isPassage passages ⟨(cx.toNat : Int), (y : Int)⟩ then none
        else some (⟨(cx.toNat : Int), (y : Int)⟩ : Coord)), ?_, ?_⟩
    · exact List.mem_map.mpr ⟨cx.toNat, List.mem_range.mpr (by omega), rfl⟩
    · apply List.mem_filterMap.mpr
      refine ⟨cy.toNat, List.mem_range.mpr (by omega), ?_⟩
      rw [hcc, if_neg (by simp [hpass])]

/-- The passage component of the paired loop agrees with `primsLoop`. -/
theorem primsLoopPair_fst (width height : Int) :
    ∀ (fuel : Nat) (passages wallList : List Coord) (idxs : List Nat),
    (primsLoopPair width height fuel passages wallList idxs).1 =
      primsLoop width height fuel passages wallList idxs := by
  intro fuel
  induction fuel with
  | zero =>
    intro passages wallList idxs
    rfl
  | succ fuel ih =>
    intro passages wallList idxs
    cases wallList with
    | nil => rfl
    | cons a rest =>
      simp only [primsLoopPair, primsLoop]
      exact ih _ _ _

theorem isPassage_cons (w : Coord) (P : List Coord) (c : Coord) :
    isPassage (w :: P) c = ((w.x == c.x && w.y == c.y) || isPassage P c) := by
  simp [isPassage]

theorem isPassage_cons_self (w : Coord) (P : List Coord) :
    isPassage (w :: P) w = true := by
  simp [isPassage]

theorem coordEq_false_of_ne {a b : Coord} (h : ¬b = a) :
    (a.x == b.x && a.y == b.y) = false := by
  obtain ⟨ax, ay⟩ := a
  obtain ⟨bx, bv⟩ := b
  show ((ax == bx) && (ay == bv)) = false
  cases heq : ((ax == bx) && (ay == bv)) with
  | false => rfl
  | true =>
    rw [Bool.and_eq_true, beq_iff_eq, beq_iff_eq] at heq
    refine absurd ?_ h
    simp only [Coord.mk.injEq]
    exact ⟨heq.1.symm, heq.2.symm⟩

theorem isPassage_cons_of_ne {w : Coord} (P : List Coord) {c : Coord} (h : ¬c = w) :
    isPassage (w :: P) c = isPassage P c := by
  rw [isPassage_cons, coordEq_false_of_ne h, Bool.false_or]

theorem isPassage_false_of_cons {w : Coord} {P : List Coord} {c : Coord}
    (h : isPassage (w :: P) c = false) : isPassage P c = false := by
  rw [isPassage_cons] at h
  exact (Bool.or_eq_false_iff.mp h).2

theorem ne_of_isPassage_cons_false {w : Coord} {P : List Coord} {c : Coord}
    (h : isPassage (w :: P) c = false) : ¬c = w := by
  intro hcw
  rw [hcw, isPassage_cons_self] at h
  cases h

/-- An element different from the one at the erased index stays in the
list. -/
theorem mem_eraseIdx_of_mem_of_ne : ∀ {l : List Coord} {idx : Nat} {a b : Coord},
    a ∈ l → l.get? idx = some b → ¬a = b → a ∈ l.eraseIdx idx := by
  intro l
  induction l with
  | nil =>
    intro idx a b h
    cases h
  | cons x t ih =>
    intro idx a b hmem hget hne
    cases idx with
    | zero =>
      have hbx : x = b := by simpa using hget
      rcases List.mem_cons.mp hmem with h | h
      · exact absurd (h.trans hbx) hne
      · simpa [List.eraseIdx] using h
    | succ i =>
      have hget' : t.get? i = some b := hget
      show a ∈ x :: t.eraseIdx i
      rcases List.mem_cons.mp hmem with h | h
      · exact List.mem_cons.mpr (Or.inl h)
      · exact List.mem_cons.mpr (Or.inr (ih h hget' hne))

theorem coord_mk_eq {a b c d : Int} (h1 : a = c) (h2 : b = d) :
    (⟨a, b⟩ : Coord) = ⟨c, d⟩ := by
  rw [h1, h2]

theorem inBounds_mk_iff {width height zx zy : Int} :
    InBounds width height ⟨zx, zy⟩ ↔ (0 ≤ zx ∧ zx < width ∧ 0 ≤ zy ∧ zy < height) :=
  Iff.rfl

theorem passCnt_le_one (width height : Int) (P : List Coord) (c : Coord) :
    passCnt width height P c ≤ 1 := by
  unfold passCnt
  split <;> omega

theorem passCnt_eq_one_iff {width height : Int} {P : List Coord} {c : Coord} :
    passCnt width height P c = 1 ↔ (InBounds width height c ∧ isPassage P c = true) := by
  unfold passCnt
  split <;> simp_all

theorem passCnt_eq_zero_of_wall {width height : Int} {P : List Coord} {c : Coord}
    (h : isPassage P c = false) : passCnt width height P c = 0 := by
  unfold passCnt
  rw [if_neg]
  rintro ⟨-, hp⟩
  rw [h] at hp
  cases hp

theorem passCnt_eq_zero_of_out {width height : Int} {P : List Coord} {c : Coord}
    (h : ¬InBounds width height c) : passCnt width height P c = 0 := by
  unfold passCnt
  rw [if_neg]
  rintro ⟨hb, -⟩
  exact h hb

theorem passCnt_ite (width height : Int) (P : List Coord) (ax ay : Int) :
    (if (isPassage P ⟨ax, ay⟩ && (decide (0 ≤ ax) && decide (0 ≤ ay)
        && decide (ax < width) && decide (ay < height))) = true then 1 else 0)
      = passCnt width height P ⟨ax, ay⟩ := by
  by_cases hp : isPassage P ⟨ax, ay⟩ = true <;>
    by_cases h1 : 0 ≤ ax <;> by_cases h2 : ax < width <;>
    by_cases h3 : 0 ≤ ay <;> by_cases h4 : ay < height <;>
    simp [passCnt, inBounds_mk_iff, hp, h1, h2, h3, h4]

/-- The passage count around a cell decomposed over its four neighbour
positions (in the raw offset-plus-coordinate form `getCells` produces). -/
theorem countP_getCells_eq (width height : Int) (P : List Coord) (zx zy : Int) :
    (getCells width height ⟨zx, zy⟩).countP (fun c => isPassage P c) =
      passCnt width height P ⟨-1 + zx, 0 + zy⟩ + passCnt width height P ⟨0 + zx, 1 + zy⟩
      + passCnt width height P ⟨1 + zx, 0 + zy⟩ + passCnt width height P ⟨0 + zx, -1 + zy⟩ := by
  rw [getCells, List.countP_filter]
  simp only [neighbors4, directions, List.map_cons, List.map_nil,
    List.countP_cons, List.countP_nil, passCnt_ite]
  omega

/-- Unfolded form of the `Star` property around an explicit cell. -/
theorem star_force {width height : Int} {P : List Coord} (hstar : Star width height P)
    (zx zy : Int) (hin : InBounds width height ⟨zx, zy⟩)
    (hwall : isPassage P ⟨zx, zy⟩ = false) :
    passCnt width height P ⟨zx - 1, zy⟩ + passCnt width height P ⟨zx, zy + 1⟩
      + passCnt width height P ⟨zx + 1, zy⟩ + passCnt width height P ⟨zx, zy - 1⟩ ≠ 1 := by
  have h := hstar ⟨zx, zy⟩ hin hwall
  rw [countP_getCells_eq] at h
  rw [show (⟨zx - 1, zy⟩ : Coord) = ⟨-1 + zx, 0 + zy⟩ from coord_mk_eq (by omega) (by omega),
    show (⟨zx, zy + 1⟩ : Coord) = ⟨0 + zx, 1 + zy⟩ from coord_mk_eq (by omega) (by omega),
    show (⟨zx + 1, zy⟩ : Coord) = ⟨1 + zx, 0 + zy⟩ from coord_mk_eq (by omega) (by omega),
    show (⟨zx, zy - 1⟩ : Coord) = ⟨0 + zx, -1 + zy⟩ from coord_mk_eq (by omega) (by omega)]
  exact h

/-- The frontier invariant holds for the seeded initial state: a wall with
exactly one passage neighbour must be adjacent to the seed, and all the
seed's clipped neighbours form the initial frontier. -/
theorem frontierInv_init (width height : Int) (seed : Coord) :
    FrontierInv width height [seed] (getCells width height seed) := by
  intro z hin hwall hcount
  have hpos : 0 < (getCells width height z).countP (fun c => isPassage [seed] c) := by
    rw [hcount]
    exact Nat.one_pos
  obtain ⟨p, hpmem, hppass⟩ := List.countP_pos_iff.mp hpos
  have hp : p ∈ [seed] := (isPassage_iff_mem _ _).mp hppass
  rw [List.mem_singleton] at hp
  rw [hp] at hpmem
  exact mem_getCells.mpr ⟨adj_symm (mem_getCells.mp hpmem).1, hin⟩

/-- One generation-loop iteration preserves the frontier invariant: a
conversion pushes every wall that newly sees exactly one passage (all of
them neighbours of the converted cell), and a popped wall that stays a
wall did not have exactly one passage neighbour. -/
theorem frontierInv_step (width height : Int) (passages wallList : List Coord) (idx : Nat)
    (hinv : FrontierInv width height passages wallList) :
    FrontierInv width height (primsStep width height passages wallList idx).1
      (primsStep width height passages wallList idx).2 := by
  cases hget : wallList.get? idx with
  | none =>
    simp only [primsStep, hget]
    exact hinv
  | some w =>
    by_cases hcount :
        (getCells width height w).countP (fun c => isPassage passages c) = 1
    · rw [primsStep_eq_of_count_one hget hcount]
      intro z hin hwall hcnt
      have hzw : ¬z = w := ne_of_isPassage_cons_false hwall
      have hwallP : isPassage passages z = false := isPassage_false_of_cons hwall
      by_cases hmem : w ∈ getCells width height z
      · apply List.mem_append_right
        apply List.mem_filter.mpr
        refine ⟨mem_getCells.mpr ⟨adj_symm (mem_getCells.mp hmem).1, hin⟩, ?_⟩
        rw [hwall]
        rfl
      · apply List.mem_append_left
        have hcongr : (getCells width height z).countP (fun c => isPassage (w :: passages) c)
            = (getCells width height z).countP (fun c => isPassage passages c) := by
          apply List.countP_congr
          intro a ha
          have haw : ¬a = w := fun h => hmem (h ▸ ha)
          rw [isPassage_cons_of_ne _ haw]
        rw [hcongr] at hcnt
        exact mem_eraseIdx_of_mem_of_ne (hinv z hin hwallP hcnt) hget hzw
    · rw [primsStep_eq_of_count_ne hget hcount]
      intro z hin hwall hcnt
      have hzw : ¬z = w := by
        intro hzw
        rw [hzw] at hcnt
        exact hcount hcnt
      exact mem_eraseIdx_of_mem_of_ne (hinv z hin hwall hcnt) hget hzw

/-- The generation loop preserves the frontier invariant. -/
theorem primsLoopPair_frontierInv (width height : Int) :
    ∀ (fuel : Nat) (passages wallList : List Coord) (idxs : List Nat),
    FrontierInv width height passages wallList →
    FrontierInv width height (primsLoopPair width height fuel passages wallList idxs).1
      (primsLoopPair width height fuel passages wallList idxs).2 := by
  intro fuel
  induction fuel with
  | zero =>
    intro passages wallList idxs h
    exact h
  | succ fuel ih =>
    intro passages wallList idxs h
    cases wallList with
    | nil => exact h
    | cons a rest =>
      simp only [primsLoopPair]
      exact ih _ _ _ (frontierInv_step _ _ _ _ _ h)

/-- A completed run — one whose final frontier is empty — satisfies the
structural `Star` property: no remaining wall has exactly one passage
neighbour. -/
theorem star_of_completed {width height : Int} {fuel : Nat}
    {passages wallList : List Coord} {idxs : List Nat}
    (hinv : FrontierInv width height passages wallList)
    (hdone : (primsLoopPair width height fuel passages wallList idxs).2 = []) :
    Star width height (primsLoopPair width height fuel passages wallList idxs).1 := by
  intro z hin hwall hcnt
  have h := primsLoopPair_frontierInv width height fuel passages wallList idxs hinv z hin hwall hcnt
  rw [hdone] at h
  cases h

/-- What a successful scan over a contiguous index range means: the hit
satisfies the test, lies in the range, and every earlier index fails. -/
theorem find?_range'_some : ∀ (len s : Nat) (p : Nat → Bool) (j : Nat),
    (List.range' s len).find? p = some j →
    s ≤ j ∧ j < s + len ∧ p j = true ∧ ∀ k, s ≤ k → k < j → p k = false := by
  intro len
  induction len with
  | zero =>
    intro s p j h
    simp [List.range'] at h
  | succ len ih =>
    intro s p j h
    rw [List.range'_succ] at h
    cases hp : p s with
    | true =>
      rw [List.find?_cons_of_pos _ hp] at h
      have hsj : s = j := by simpa using h
      refine ⟨le_of_eq hsj, by omega, hsj ▸ hp, ?_⟩
      intro k hk1 hk2
      omega
    | false =>
      rw [List.find?_cons_of_neg _ (by simp [hp])] at h
      obtain ⟨h1, h2, h3, h4⟩ := ih (s + 1) p j h
      refine ⟨by omega, by omega, h3, ?_⟩
      intro k hk1 hk2
      rcases Nat.eq_or_lt_of_le hk1 with hk | hk
      · rw [← hk]
        exact hp
      · exact h4 k hk hk2

/-- Conversely, the first index satisfying the test is what the scan
returns. -/
theorem find?_range'_eq_some_of : ∀ (len s : Nat) (p : Nat → Bool) (j : Nat),
    s ≤ j → j < s + len → p j = true → (∀ k, s ≤ k → k < j → p k = false) →
    (List.range' s len).find? p = some j := by
  intro len
  induction len with
  | zero =>
    intro s p j h1 h2 h3 h4
    omega
  | succ len ih =>
    intro s p j h1 h2 h3 h4
    rw [List.range'_succ]
    rcases Nat.eq_or_lt_of_le h1 with hsj | hlt
    · rw [List.find?_cons_of_pos _ (hsj ▸ h3)]
      rw [hsj]
    · rw [List.find?_cons_of_neg _ (by simp [h4 s (le_refl s) hlt])]
      exact ih (s + 1) p j (by omega) (by omega) h3 (fun k hk1 hk2 => h4 k (by omega) hk2)

/-- Cells outside the grid are never passages of a bounds-respecting
passage set. -/
theorem isPassage_eq_false_of_not_inBounds {width height : Int} {P : List Coord}
    (hPb : ∀ c ∈ P, InBounds width height c) {c : Coord}
    (h : ¬InBounds width height c) : isPassage P c = false := by
  cases hp : isPassage P c with
  | false => rfl
  | true => exact absurd (hPb c ((isPassage_iff_mem _ _).mp hp)) h

/-- The generator's final passage set satisfies the passage invariant for
every rng stream and fuel value. -/
theorem passagesOf_passGood (width height : Int) (rx ry : Nat) (idxs : List Nat) (fuel : Nat)
    (hw : 0 < width) (hh : 0 < height) :
    PassGood width height (firstCellOf width height rx ry)
      (passagesOf width height rx ry idxs fuel) := by
  have hseedin : InBounds width height (firstCellOf width height rx ry) := by
    show (0 : Int) ≤ ((rx % width.toNat : Nat) : Int)
      ∧ ((rx % width.toNat : Nat) : Int) < width
      ∧ (0 : Int) ≤ ((ry % height.toNat : Nat) : Int)
      ∧ ((ry % height.toNat : Nat) : Int) < height
    have hxm : rx % width.toNat < width.toNat := Nat.mod_lt _ (by omega)
    have hym : ry % height.toNat < height.toNat := Nat.mod_lt _ (by omega)
    refine ⟨by omega, by omega, by omega, by omega⟩
  apply primsLoop_preserves
  · refine ⟨List.mem_singleton_self _, ?_, ?_⟩
    · intro d hd
      rw [List.mem_singleton] at hd
      rw [hd]
      exact hseedin
    · intro d hd
      rw [List.mem_singleton] at hd
      rw [hd]
      exact Reach.refl _
  · intro d hd
    exact (mem_getCells.mp hd).2

/-- Cascade argument along columns: in a configuration with the `Star`
property, the first passage of column 0 lies above row `width`. If the
first `y0` cells of column 0 were all walls with `y0 ≥ width`, each wall
prefix would force the next column into the same shifted wall-and-passage
pattern, and the pattern would reach the last column, where the forced
cell has exactly one passage neighbour — contradicting `Star`. -/
theorem first_col_passage_lt_width {width height : Int} {P : List Coord}
    (hstar : Star width height P) (hw : 0 < width)
    {y0 : Int} (hy0 : 0 ≤ y0) (hyh : y0 < height)
    (hpass : isPassage P ⟨0, y0⟩ = true)
    (hmin : ∀ j : Int, 0 ≤ j → j < y0 → isPassage P ⟨0, j⟩ = false) :
    y0 < width := by
  by_contra hcon
  push_neg at hcon
  have key : ∀ n : Nat, (n : Int) < width →
      ((∀ j : Int, 0 ≤ j → j ≤ y0 - 1 - (n : Int) → isPassage P ⟨(n : Int), j⟩ = false)
        ∧ isPassage P ⟨(n : Int), y0 - (n : Int)⟩ = true) := by
    intro n
    induction n using Nat.strong_induction_on with
    | _ n ih =>
      intro hnw
      cases n with
      | zero =>
        constructor
        · intro j hj1 hj2
          rw [show (⟨((0 : Nat) : Int), j⟩ : Coord) = ⟨0, j⟩ from coord_mk_eq (by omega) rfl]
          exact hmin j hj1 (by omega)
        · rw [show (⟨((0 : Nat) : Int), y0 - ((0 : Nat) : Int)⟩ : Coord) = ⟨0, y0⟩ from
            coord_mk_eq (by omega) (by omega)]
          exact hpass
      | succ m =>
        have hmw : (m : Int) < width := by push_cast at hnw ⊢; omega
        obtain ⟨hQm1, hQm2⟩ := ih m (Nat.lt_succ_self m) hmw
        have hact : (m : Int) + 1 ≤ y0 - 1 := by push_cast at hnw; omega
        have hleft : ∀ j : Int, 0 ≤ j → j ≤ y0 - (m : Int) →
            passCnt width height P ⟨(m : Int) - 1, j⟩ = 0 := by
          intro j hj1 hj2
          cases m with
          | zero =>
            apply passCnt_eq_zero_of_out
            rw [inBounds_mk_iff]
            omega
          | succ mp =>
            have hmpw : (mp : Int) < width := by push_cast at hmw ⊢; omega
            obtain ⟨hQ1p, -⟩ := ih mp (by omega) hmpw
            apply passCnt_eq_zero_of_wall
            rw [show (⟨((mp + 1 : Nat) : Int) - 1, j⟩ : Coord) = ⟨(mp : Int), j⟩ from
              coord_mk_eq (by push_cast; omega) rfl]
            exact hQ1p j hj1 (by push_cast at hj2 ⊢; omega)
        constructor
        · intro j hj1 hj2
          have hj2p : j ≤ y0 - (m : Int) - 2 := by push_cast at hj2; omega
          have hwallz : isPassage P ⟨(m : Int), j⟩ = false := hQm1 j hj1 (by omega)
          have hinz : InBounds width height ⟨(m : Int), j⟩ := by
            rw [inBounds_mk_iff]
            refine ⟨by omega, hmw, hj1, by omega⟩
          have hforce := star_force hstar (m : Int) j hinz hwallz
          have hup : passCnt width height P ⟨(m : Int), j + 1⟩ = 0 :=
            passCnt_eq_zero_of_wall (hQm1 (j + 1) (by omega) (by omega))
          have hdown : passCnt width height P ⟨(m : Int), j - 1⟩ = 0 := by
            by_cases hj0 : 0 ≤ j - 1
            · exact passCnt_eq_zero_of_wall (hQm1 (j - 1) hj0 (by omega))
            · apply passCnt_eq_zero_of_out
              rw [inBounds_mk_iff]
              omega
          have hl := hleft j hj1 (by omega)
          have hrle := passCnt_le_one width height P ⟨(m : Int) + 1, j⟩
          have hr : passCnt width height P ⟨(m : Int) + 1, j⟩ = 0 := by omega
          cases hpr : isPassage P ⟨(m : Int) + 1, j⟩ with
          | false =>
            rw [show (⟨((m + 1 : Nat) : Int), j⟩ : Coord) = ⟨(m : Int) + 1, j⟩ from
              coord_mk_eq (by push_cast; omega) rfl]
            exact hpr
          | true =>
            have hinr : InBounds width height ⟨(m : Int) + 1, j⟩ := by
              rw [inBounds_mk_iff]
              push_cast at hnw
              refine ⟨by omega, by omega, hj1, by omega⟩
            have hone := passCnt_eq_one_iff.mpr ⟨hinr, hpr⟩
            omega
        · have hj0 : 0 ≤ y0 - 1 - (m : Int) := by omega
          have hwallz : isPassage P ⟨(m : Int), y0 - 1 - (m : Int)⟩ = false :=
            hQm1 _ hj0 (by omega)
          have hinz : InBounds width height ⟨(m : Int), y0 - 1 - (m : Int)⟩ := by
            rw [inBounds_mk_iff]
            refine ⟨by omega, hmw, hj0, by omega⟩
          have hforce := star_force hstar (m : Int) (y0 - 1 - (m : Int)) hinz hwallz
          have hup : passCnt width height P ⟨(m : Int), y0 - 1 - (m : Int) + 1⟩ = 1 := by
            apply passCnt_eq_one_iff.mpr
            constructor
            · rw [inBounds_mk_iff]
              refine ⟨by omega, hmw, by omega, by omega⟩
            · rw [show (⟨(m : Int), y0 - 1 - (m : Int) + 1⟩ : Coord)
                  = ⟨(m : Int), y0 - (m : Int)⟩ from coord_mk_eq rfl (by omega)]
              exact hQm2
          have hdown : passCnt width height P ⟨(m : Int), y0 - 1 - (m : Int) - 1⟩ = 0 := by
            by_cases hj0p : 0 ≤ y0 - 1 - (m : Int) - 1
            · exact passCnt_eq_zero_of_wall (hQm1 _ hj0p (by omega))
            · apply passCnt_eq_zero_of_out
              rw [inBounds_mk_iff]
              omega
          have hl := hleft (y0 - 1 - (m : Int)) hj0 (by omega)
          have hrle := passCnt_le_one width height P ⟨(m : Int) + 1, y0 - 1 - (m : Int)⟩
          have hr : passCnt width height P ⟨(m : Int) + 1, y0 - 1 - (m : Int)⟩ = 1 := by omega
          obtain ⟨-, hpr⟩ := passCnt_eq_one_iff.mp hr
          rw [show (⟨((m + 1 : Nat) : Int), y0 - ((m + 1 : Nat) : Int)⟩ : Coord)
              = ⟨(m : Int) + 1, y0 - 1 - (m : Int)⟩ from
            coord_mk_eq (by push_cast; omega) (by push_cast; omega)]
          exact hpr
  have hnw : (((width - 1).toNat : Nat) : Int) < width := by omega
  obtain ⟨hQ1, hQ2⟩ := key (width - 1).toNat hnw
  have hnval : (((width - 1).toNat : Nat) : Int) = width - 1 := by omega
  rw [hnval] at hQ1 hQ2
  have hj0 : (0 : Int) ≤ y0 - width := by omega
  have hwallz : isPassage P ⟨width - 1, y0 - width⟩ = false := hQ1 _ hj0 (by omega)
  have hinz : InBounds width height ⟨width - 1, y0 - width⟩ := by
    rw [inBounds_mk_iff]
    refine ⟨by omega, by omega, hj0, by omega⟩
  have hforce := star_force hstar (width - 1) (y0 - width) hinz hwallz
  have hup : passCnt width height P ⟨width - 1, y0 - width + 1⟩ = 1 := by
    apply passCnt_eq_one_iff.mpr
    constructor
    · rw [inBounds_mk_iff]
      refine ⟨by omega, by omega, by omega, by omega⟩
    · rw [show (⟨width - 1, y0 - width + 1⟩ : Coord) = ⟨width - 1, y0 - (width - 1)⟩ from
        coord_mk_eq rfl (by omega)]
      exact hQ2
  have hdown : passCnt width height P ⟨width - 1, y0 - width - 1⟩ = 0 := by
    by_cases hjj : 0 ≤ y0 - width - 1
    · exact passCnt_eq_zero_of_wall (hQ1 _ hjj (by omega))
    · apply passCnt_eq_zero_of_out
      rw [inBounds_mk_iff]
      omega
  have hr : passCnt width height P ⟨width - 1 + 1, y0 - width⟩ = 0 := by
    apply passCnt_eq_zero_of_out
    rw [inBounds_mk_iff]
    omega
  have hl : passCnt width height P ⟨width - 1 - 1, y0 - width⟩ = 0 := by
    by_cases hw2 : (2 : Int) ≤ width
    · have hmw : (((width - 2).toNat : Nat) : Int) < width := by omega
      obtain ⟨hQ1p, -⟩ := key (width - 2).toNat hmw
      have hval : (((width - 2).toNat : Nat) : Int) = width - 2 := by omega
      rw [hval] at hQ1p
      apply passCnt_eq_zero_of_wall
      rw [show (⟨width - 1 - 1, y0 - width⟩ : Coord) = ⟨width - 2, y0 - width⟩ from
        coord_mk_eq (by omega) rfl]
      exact hQ1p _ hj0 (by omega)
    · apply passCnt_eq_zero_of_out
      rw [inBounds_mk_iff]
      omega
  omega

/-- Cascade argument along rows, mirroring `first_col_passage_lt_width`:
in a configuration with the `Star` property, the bottom row's first
passage when scanning from the right edge is hit within `height` steps. -/
theorem last_row_first_hit_lt_height {width height : Int} {P : List Coord}
    (hstar : Star width height P) (hh : 0 < height)
    {x0 : Int} (hx0 : 0 ≤ x0) (hxw : x0 < width)
    (hpass : isPassage P ⟨x0, height - 1⟩ = true)
    (hmax : ∀ x : Int, x0 < x → x < width → isPassage P ⟨x, height - 1⟩ = false) :
    width - 1 - x0 < height := by
  by_contra hcon
  push_neg at hcon
  have key : ∀ n : Nat, (n : Int) < height →
      ((∀ x : Int, x0 + 1 + (n : Int) ≤ x → x ≤ width - 1 →
          isPassage P ⟨x, height - 1 - (n : Int)⟩ = false)
        ∧ isPassage P ⟨x0 + (n : Int), height - 1 - (n : Int)⟩ = true) := by
    intro n
    induction n using Nat.strong_induction_on with
    | _ n ih =>
      intro hnh
      cases n with
      | zero =>
        constructor
        · intro x hx1 hx2
          rw [show (⟨x, height - 1 - ((0 : Nat) : Int)⟩ : Coord) = ⟨x, height - 1⟩ from
            coord_mk_eq rfl (by omega)]
          exact hmax x (by push_cast at hx1; omega) (by omega)
        · rw [show (⟨x0 + ((0 : Nat) : Int), height - 1 - ((0 : Nat) : Int)⟩ : Coord)
              = ⟨x0, height - 1⟩ from coord_mk_eq (by omega) (by omega)]
          exact hpass
      | succ m =>
        have hmh : (m : Int) < height := by push_cast at hnh ⊢; omega
        obtain ⟨hRm1, hRm2⟩ := ih m (Nat.lt_succ_self m) hmh
        have hact : (m : Int) + 1 ≤ width - 1 - x0 - 1 := by push_cast at hnh; omega
        have hbelow : ∀ x : Int, x0 + (m : Int) + 1 ≤ x → x ≤ width - 1 →
            passCnt width height P ⟨x, height - 1 - (m : Int) + 1⟩ = 0 := by
          intro x hx1 hx2
          cases m with
          | zero =>
            apply passCnt_eq_zero_of_out
            rw [inBounds_mk_iff]
            omega
          | succ mp =>
            have hmph : (mp : Int) < height := by push_cast at hmh ⊢; omega
            obtain ⟨hR1p, -⟩ := ih mp (by omega) hmph
            apply passCnt_eq_zero_of_wall
            rw [show (⟨x, height - 1 - ((mp + 1 : Nat) : Int) + 1⟩ : Coord)
                = ⟨x, height - 1 - (mp : Int)⟩ from coord_mk_eq rfl (by push_cast; omega)]
            exact hR1p x (by push_cast at hx1 ⊢; omega) hx2
        constructor
        · intro x hx1 hx2
          have hx1p : x0 + (m : Int) + 2 ≤ x := by push_cast at hx1; omega
          have hwallz : isPassage P ⟨x, height - 1 - (m : Int)⟩ = false :=
            hRm1 x (by omega) hx2
          have hinz : InBounds width height ⟨x, height - 1 - (m : Int)⟩ := by
            rw [inBounds_mk_iff]
            refine ⟨by omega, by omega, by omega, by omega⟩
          have hforce := star_force hstar x (height - 1 - (m : Int)) hinz hwallz
          have hleftn : passCnt width height P ⟨x - 1, height - 1 - (m : Int)⟩ = 0 :=
            passCnt_eq_zero_of_wall (hRm1 (x - 1) (by omega) (by omega))
          have hrightn : passCnt width height P ⟨x + 1, height - 1 - (m : Int)⟩ = 0 := by
            by_cases hxx : x + 1 ≤ width - 1
            · exact passCnt_eq_zero_of_wall (hRm1 (x + 1) (by omega) hxx)
            · apply passCnt_eq_zero_of_out
              rw [inBounds_mk_iff]
              omega
          have hdownn := hbelow x (by omega) hx2
          have hule := passCnt_le_one width height P ⟨x, height - 1 - (m : Int) - 1⟩
          have hu : passCnt width height P ⟨x, height - 1 - (m : Int) - 1⟩ = 0 := by omega
          cases hpr : isPassage P ⟨x, height - 1 - (m : Int) - 1⟩ with
          | false =>
            rw [show (⟨x, height - 1 - ((m + 1 : Nat) : Int)⟩ : Coord)
                = ⟨x, height - 1 - (m : Int) - 1⟩ from coord_mk_eq rfl (by push_cast; omega)]
            exact hpr
          | true =>
            have hinr : InBounds width height ⟨x, height - 1 - (m : Int) - 1⟩ := by
              rw [inBounds_mk_iff]
              push_cast at hnh
              refine ⟨by omega, by omega, by omega, by omega⟩
            have hone := passCnt_eq_one_iff.mpr ⟨hinr, hpr⟩
            omega
        · have hxz : x0 + 1 + (m : Int) ≤ width - 1 := by omega
          have hwallz : isPassage P ⟨x0 + 1 + (m : Int), height - 1 - (m : Int)⟩ = false :=
            hRm1 _ (by omega) hxz
          have hinz : InBounds width height ⟨x0 + 1 + (m : Int), height - 1 - (m : Int)⟩ := by
            rw [inBounds_mk_iff]
            refine ⟨by omega, by omega, by omega, by omega⟩
          have hforce := star_force hstar (x0 + 1 + (m : Int)) (height - 1 - (m : Int)) hinz hwallz
          have hleftn :
              passCnt width height P ⟨x0 + 1 + (m : Int) - 1, height - 1 - (m : Int)⟩ = 1 := by
            apply passCnt_eq_one_iff.mpr
            constructor
            · rw [inBounds_mk_iff]
              refine ⟨by omega, by omega, by omega, by omega⟩
            · rw [show (⟨x0 + 1 + (m : Int) - 1, height - 1 - (m : Int)⟩ : Coord)
                  = ⟨x0 + (m : Int), height - 1 - (m : Int)⟩ from coord_mk_eq (by omega) rfl]
              exact hRm2
          have hrightn :
              passCnt width height P ⟨x0 + 1 + (m : Int) + 1, height - 1 - (m : Int)⟩ = 0 := by
            by_cases hxx : x0 + 1 + (m : Int) + 1 ≤ width - 1
            · exact passCnt_eq_zero_of_wall (hRm1 _ (by omega) hxx)
            · apply passCnt_eq_zero_of_out
              rw [inBounds_mk_iff]
              omega
          have hdownn := hbelow (x0 + 1 + (m : Int)) (by omega) hxz
          have hule :=
            passCnt_le_one width height P ⟨x0 + 1 + (m : Int), height - 1 - (m : Int) - 1⟩
          have hu : passCnt width height P ⟨x0 + 1 + (m : Int), height - 1 - (m : Int) - 1⟩ = 1 := by
            omega
          obtain ⟨-, hpr⟩ := passCnt_eq_one_iff.mp hu
          rw [show (⟨x0 + ((m + 1 : Nat) : Int), height - 1 - ((m + 1 : Nat) : Int)⟩ : Coord)
              = ⟨x0 + 1 + (m : Int), height - 1 - (m : Int) - 1⟩ from
            coord_mk_eq (by push_cast; omega) (by push_cast; omega)]
          exact hpr
  have hnh : (((height - 1).toNat : Nat) : Int) < height := by omega
  obtain ⟨hR1, hR2⟩ := key (height - 1).toNat hnh
  have hnval : (((height - 1).toNat : Nat) : Int) = height - 1 := by omega
  rw [hnval] at hR1 hR2
  have hzero : height - 1 - (height - 1) = (0 : Int) := by omega
  rw [hzero] at hR2
  simp only [hzero] at hR1
  have hxE : x0 + height ≤ width - 1 := by omega
  have hwallz : isPassage P ⟨x0 + height, (0 : Int)⟩ = false := hR1 _ (by omega) hxE
  have hinz : InBounds width height ⟨x0 + height, (0 : Int)⟩ := by
    rw [inBounds_mk_iff]
    refine ⟨by omega, by omega, by omega, by omega⟩
  have hforce := star_force hstar (x0 + height) 0 hinz hwallz
  have hleftn : passCnt width height P ⟨x0 + height - 1, (0 : Int)⟩ = 1 := by
    apply passCnt_eq_one_iff.mpr
    constructor
    · rw [inBounds_mk_iff]
      refine ⟨by omega, by omega, by omega, by omega⟩
    · rw [show (⟨x0 + height - 1, (0 : Int)⟩ : Coord) = ⟨x0 + (height - 1), 0⟩ from
        coord_mk_eq (by omega) rfl]
      exact hR2
  have hrightn : passCnt width height P ⟨x0 + height + 1, (0 : Int)⟩ = 0 := by
    by_cases hxx : x0 + height + 1 ≤ width - 1
    · exact passCnt_eq_zero_of_wall (hR1 _ (by omega) hxx)
    · apply passCnt_eq_zero_of_out
      rw [inBounds_mk_iff]
      omega
  have hdownn : passCnt width height P ⟨x0 + height, (0 : Int) + 1⟩ = 0 := by
    by_cases hh2 : (2 : Int) ≤ height
    · have hmh : (((height - 2).toNat : Nat) : Int) < height := by omega
      obtain ⟨hR1p, -⟩ := key (height - 2).toNat hmh
      have hval : (((height - 2).toNat : Nat) : Int) = height - 2 := by omega
      rw [hval] at hR1p
      apply passCnt_eq_zero_of_wall
      rw [show (⟨x0 + height, (0 : Int) + 1⟩ : Coord) = ⟨x0 + height, height - 1 - (height - 2)⟩ from
        coord_mk_eq rfl (by omega)]
      exact hR1p _ (by omega) hxE
    · apply passCnt_eq_zero_of_out
      rw [inBounds_mk_iff]
      omega
  have hu : passCnt width height P ⟨x0 + height, (0 : Int) - 1⟩ = 0 := by
    apply passCnt_eq_zero_of_out
    rw [inBounds_mk_iff]
    omega
  omega

/-! Claim theorems. -/

/-- C5: the `hCost` assigned during the search follows the Diagonal
formula `D*(|dx|+|dy|) + (D2-2*D)*min(|dx|,|dy|)` exactly when diagonal
movement is enabled and the Manhattan formula `D*(|dx|+|dy|)` exactly when
it is disabled, with `D = 10` and `D2 = round(sqrt(10^2 + 10^2)) = 14`;
the choice is driven solely by the `diagonalMovement` flag. -/
theorem heuristic_formulas :
    (∀ e c : Coord, hCostOf true e c =
      D * (|c.x - e.x| + |c.y - e.y|) + (D2 - 2 * D) * min |c.x - e.x| |c.y - e.y|)
    ∧ (∀ e c : Coord, hCostOf false e c = D * (|c.x - e.x| + |c.y - e.y|))
    ∧ D = 10 ∧ D2 = 14
    ∧ round (Real.sqrt ((D : ℝ) ^ 2 + (D : ℝ) ^ 2)) = D2 := by
  refine ⟨fun e c => rfl, fun e c => rfl, rfl, rfl, ?_⟩
  have hD : ((D : ℝ) ^ 2 + (D : ℝ) ^ 2) = 200 := by norm_num [D]
  rw [hD]
  have h1 : (13.5 : ℝ) ≤ Real.sqrt 200 := by
    have h := Real.sqrt_le_sqrt (show ((13.5 : ℝ) ^ 2) ≤ 200 by norm_num)
    rwa [Real.sqrt_sq (by norm_num : (0 : ℝ) ≤ 13.5)] at h
  have h2 : Real.sqrt 200 < 14.5 := by
    have h := Real.sqrt_lt_sqrt (by norm_num : (0 : ℝ) ≤ 200)
      (show (200 : ℝ) < 14.5 ^ 2 by norm_num)
    rwa [Real.sqrt_sq (by norm_num : (0 : ℝ) ≤ 14.5)] at h
  show round (Real.sqrt 200) = (14 : ℤ)
  rw [round_eq, Int.floor_eq_iff]
  constructor
  · push_cast
    linarith
  · push_cast
    linarith

/-- C1 (counterexample): with two open-set members of equal minimal
`fCost`, the scan selects the SECOND one — the later candidate replaces
the running choice because the comparison keeps the current item on
`<=` — so the entry with the smaller scan index is not the one popped. -/
theorem findMin_ties_pick_second :
    findMin [Node.mk 0 0 0 5 none, Node.mk 1 0 2 3 none] = some (Node.mk 1 0 2 3 none)
    ∧ fCost (Node.mk 0 0 0 5 none) = fCost (Node.mk 1 0 2 3 none)
    ∧ (Node.mk 1 0 2 3 none).x ≠ (Node.mk 0 0 0 5 none).x :=
  ⟨rfl, rfl, by decide⟩

/-- C1 (amended): the member the main loop selects for expansion has
minimal `fCost`, and among equal-minimum members it is the LAST one
encountered during the scan: every earlier member costs at least as much
and every later member costs strictly more. -/
theorem findMin_selects_last_minimum (minItem : Node) (rest : List Node) :
    ∃ r l1 l2, findMin (minItem :: rest) = some r
      ∧ minItem :: rest = l1 ++ r :: l2
      ∧ (∀ x ∈ l1, fCost r ≤ fCost x)
      ∧ (∀ x ∈ l2, fCost r < fCost x) := by
  obtain ⟨l1, l2, hdec, h1, h2⟩ := foldl_reduceMin_decomp minItem rest
  exact ⟨rest.foldl reduceMin minItem, l1, l2, rfl, hdec, h1, h2⟩

/-- C10: on the 3-by-3 empty grid with start `(0,0)` and end `(2,2)`, the
search without diagonal movement returns a 5-coordinate path of total
cost 40, and with diagonal movement the path `(0,0), (1,1), (2,2)` of
total cost `2 * D2 = 28`. -/
theorem startPathFind_3x3_concrete :
    ((startPathFind 3 3 [] ⟨0, 0⟩ ⟨2, 2⟩ false 20).nodePath.length = 5
      ∧ (startPathFind 3 3 [] ⟨0, 0⟩ ⟨2, 2⟩ false 20).distance = 40)
    ∧ ((startPathFind 3 3 [] ⟨0, 0⟩ ⟨2, 2⟩ true 20).nodePath = [⟨0, 0⟩, ⟨1, 1⟩, ⟨2, 2⟩]
      ∧ (startPathFind 3 3 [] ⟨0, 0⟩ ⟨2, 2⟩ true 20).distance = 2 * D2) :=
  ⟨⟨rfl, rfl⟩, rfl, rfl⟩

/-- C4: when a node is expanded, each valid neighbour's tentative `gCost`
is the current node's `gCost` plus `D2` iff both coordinates change
(else `D`), and the open-set entry is appended when the neighbour is
absent, replaced (with the new costs and the current node as predecessor)
when the tentative cost is `<=` the recorded one, and left untouched
otherwise — so an equal-cost alternative does overwrite the stored
predecessor. -/
theorem relaxNeighbor_insert_replace_rule
    (currentNode : Node) (diagonalMovement : Bool) (endC : Coord)
    (openNodesLocal : List Node) (neighbor : Coord) :
    (openNodesLocal.findIdx? (fun node => node.x == neighbor.x && node.y == neighbor.y) = none →
      relaxNeighbor currentNode diagonalMovement endC openNodesLocal neighbor =
        openNodesLocal ++ [Node.mk neighbor.x neighbor.y
          (currentNode.gCost +
            (if neighbor.x ≠ currentNode.x ∧ neighbor.y ≠ currentNode.y then D2 else D))
          (hCostOf diagonalMovement endC neighbor) (some currentNode)])
    ∧ (∀ i prev,
        openNodesLocal.findIdx? (fun node => node.x == neighbor.x && node.y == neighbor.y) = some i →
        openNodesLocal.get? i = some prev →
        currentNode.gCost +
          (if neighbor.x ≠ currentNode.x ∧ neighbor.y ≠ currentNode.y then D2 else D) ≤ prev.gCost →
        relaxNeighbor currentNode diagonalMovement endC openNodesLocal neighbor =
          openNodesLocal.set i (Node.mk neighbor.x neighbor.y
            (currentNode.gCost +
              (if neighbor.x ≠ currentNode.x ∧ neighbor.y ≠ currentNode.y then D2 else D))
            (hCostOf diagonalMovement endC neighbor) (some currentNode)))
    ∧ (∀ i prev,
        openNodesLocal.findIdx? (fun node => node.x == neighbor.x && node.y == neighbor.y) = some i →
        openNodesLocal.get? i = some prev →
        prev.gCost < currentNode.gCost +
          (if neighbor.x ≠ currentNode.x ∧ neighbor.y ≠ currentNode.y then D2 else D) →
        relaxNeighbor currentNode diagonalMovement endC openNodesLocal neighbor =
          openNodesLocal) := by
  refine ⟨?_, ?_, ?_⟩
  · intro h
    simp only [relaxNeighbor, h]
  · intro i prev h1 h2 h3
    simp only [relaxNeighbor, h1, h2]
    rw [if_pos h3]
  · intro i prev h1 h2 h3
    simp only [relaxNeighbor, h1, h2]
    rw [if_neg (not_le.mpr h3)]

theorem relaxNeighbor_insert_replace_rule_witness :
    relaxNeighbor (Node.mk 0 0 0 28 none) true ⟨2, 2⟩ [] ⟨1, 1⟩ =
      [Node.mk 1 1 14 14 (some (Node.mk 0 0 0 28 none))] := by
  have h := (relaxNeighbor_insert_replace_rule (Node.mk 0 0 0 28 none) true ⟨2, 2⟩ [] ⟨1, 1⟩).1 rfl
  rw [h]
  rfl

/-- C6: a candidate neighbour (a straight offset, or also a diagonal one
when diagonal movement is enabled, applied to the expanded node) is kept
exactly when it is within grid bounds, not a wall and not already closed;
in particular the diagonal neighbour `(1,1)` of `(0,0)` is kept even
though both straight-adjacent cells `(1,0)` and `(0,1)` are walls: no
corner blocking. -/
theorem getValidNeighbors_valid_iff :
    (∀ (width height : Int) (walls : List Coord) (diagonalMovement : Bool)
        (node : Node) (closedNodesLocal : List Node) (c : Coord),
      c ∈ getValidNeighbors width height walls diagonalMovement node closedNodesLocal ↔
        ((∃ d ∈ (if diagonalMovement then straight ++ diagonal else straight),
            c = (⟨d.x + node.x, d.y + node.y⟩ : Coord))
          ∧ InBounds width height c
          ∧ (∀ wall ∈ walls, ¬(wall.x = c.x ∧ wall.y = c.y))
          ∧ (∀ n ∈ closedNodesLocal, ¬(n.x = c.x ∧ n.y = c.y))))
    ∧ ((⟨1, 1⟩ : Coord) ∈ getValidNeighbors 3 3 [⟨1, 0⟩, ⟨0, 1⟩] true (Node.mk 0 0 0 28 none) []
      ∧ isWallTile [⟨1, 0⟩, ⟨0, 1⟩] 1 0 = true ∧ isWallTile [⟨1, 0⟩, ⟨0, 1⟩] 0 1 = true) := by
  refine ⟨?_, by decide, by decide, by decide⟩
  intro width height walls diagonalMovement node closedNodesLocal c
  have hwall : ∀ x y : Int, ((!isWallTile walls x y) = true) ↔
      ∀ wall ∈ walls, ¬(wall.x = x ∧ wall.y = y) := by
    intro x y
    simp [isWallTile, not_and]
  have hclosed : ∀ cc : Coord, ((!isClosedNode cc closedNodesLocal) = true) ↔
      ∀ n ∈ closedNodesLocal, ¬(n.x = cc.x ∧ n.y = cc.y) := by
    intro cc
    simp [isClosedNode, not_and]
  simp only [getValidNeighbors, List.mem_filter, List.mem_map, Bool.and_eq_true,
    decide_eq_true_eq, hwall, hclosed, InBounds]
  constructor
  · rintro ⟨⟨d, hd, hdc⟩, ⟨⟨⟨⟨h1, h2⟩, h3⟩, h4⟩, hw⟩, hc⟩
    exact ⟨⟨d, hd, hdc.symm⟩, ⟨h1, h2, h3, h4⟩, hw, hc⟩
  · rintro ⟨⟨d, hd, hdc⟩, ⟨h1, h2, h3, h4⟩, hw, hc⟩
    exact ⟨⟨d, hd, hdc.symm⟩, ⟨⟨⟨⟨h1, h2⟩, h3⟩, h4⟩, hw⟩, hc⟩

/-- C3: whenever the end coordinate never enters the closed set, the
traced path is empty and the reported distance is `0` (the `distance`
state keeps its initial value because `setDistance` only fires when the
end node is found in the closed list); no error of any kind is produced,
so emptiness of the path is the only signal. -/
theorem no_path_gives_empty_path_and_zero_cost
    (width height : Int) (walls : List Coord) (startC endC : Coord)
    (diagonalMovement : Bool) (fuel : Nat)
    (h : ∀ n ∈ (startPathFind width height walls startC endC diagonalMovement fuel).closedNodes,
      ¬(n.x = endC.x ∧ n.y = endC.y)) :
    (startPathFind width height walls startC endC diagonalMovement fuel).nodePath = []
    ∧ (startPathFind width height walls startC endC diagonalMovement fuel).distance = 0 := by
  have hfind : ((astarLoop width height walls endC diagonalMovement fuel
      [Node.mk startC.x startC.y 0 (hCostOf diagonalMovement endC startC) none] [] 0).1).find?
      (fun node => node.x == endC.x && node.y == endC.y) = none := by
    apply List.find?_eq_none.mpr
    intro n hn
    have hn' : ¬(n.x = endC.x ∧ n.y = endC.y) := h n hn
    simpa using hn'
  refine ⟨?_, ?_⟩
  · simp only [startPathFind]
    rw [hfind]
    rfl
  · simp only [startPathFind]
    rw [hfind]

theorem no_path_gives_empty_path_and_zero_cost_witness :
    (∀ n ∈ (startPathFind 3 1 [⟨1, 0⟩] ⟨0, 0⟩ ⟨2, 0⟩ false 10).closedNodes,
      ¬(n.x = 2 ∧ n.y = 0))
    ∧ (startPathFind 3 1 [⟨1, 0⟩] ⟨0, 0⟩ ⟨2, 0⟩ false 10).nodePath = []
    ∧ (startPathFind 3 1 [⟨1, 0⟩] ⟨0, 0⟩ ⟨2, 0⟩ false 10).distance = 0 :=
  ⟨by decide, no_path_gives_empty_path_and_zero_cost 3 1 [⟨1, 0⟩] ⟨0, 0⟩ ⟨2, 0⟩ false 10 (by decide)⟩

/-- Characterization of the start/end scan loop: each component is the
first hit of its test over the remaining indices, frozen by its flag. -/
theorem scanGo_eq (width height : Int) (passages : List Coord) :
    ∀ (rem i : Nat) (startFound endFound : Bool) (s e : Coord),
    scanGo width height passages rem i startFound endFound s e =
      ((if startFound then s else
          match (List.range' i rem).find? (fun j : Nat => isPassage passages ⟨0, (j : Int)⟩) with
          | some j => ⟨0, (j : Int)⟩
          | none => s),
       (if endFound then e else
          match (List.range' i rem).find? (fun j : Nat =>
              isPassage passages ⟨width - 1 - (j : Int), height - 1⟩) with
          | some j => ⟨width - 1 - (j : Int), height - 1⟩
          | none => e)) := by
  intro rem
  induction rem with
  | zero =>
    intro i sF eF s e
    simp [scanGo]
  | succ rem ih =>
    intro i sF eF s e
    cases sF with
    | true =>
      cases eF with
      | true =>
        simp [scanGo]
      | false =>
        cases he : isPassage passages ⟨width - 1 - (i : Int), height - 1⟩ with
        | true => simp [scanGo, ih, List.range'_succ, List.find?_cons, he]
        | false => simp [scanGo, ih, List.range'_succ, List.find?_cons, he]
    | false =>
      cases eF with
      | true =>
        cases hs : isPassage passages ⟨0, (i : Int)⟩ with
        | true => simp [scanGo, ih, List.range'_succ, List.find?_cons, hs]
        | false => simp [scanGo, ih, List.range'_succ, List.find?_cons, hs]
      | false =>
        cases hs : isPassage passages ⟨0, (i : Int)⟩ with
        | true =>
          cases he : isPassage passages ⟨width - 1 - (i : Int), height - 1⟩ with
          | true => simp [scanGo, ih, List.range'_succ, List.find?_cons, hs, he]
          | false => simp [scanGo, ih, List.range'_succ, List.find?_cons, hs, he]
        | false =>
          cases he : isPassage passages ⟨width - 1 - (i : Int), height - 1⟩ with
          | true => simp [scanGo, ih, List.range'_succ, List.find?_cons, hs, he]
          | false => simp [scanGo, ih, List.range'_succ, List.find?_cons, hs, he]

/-- Bridge from the source's scan loop to the bound-parameterized
first-hit scan: the source loop runs `for (let i = 0; i < grid.length;
i++)` and `grid.length` is the grid WIDTH, so on an arbitrary passage set
`scanStartEnd` equals `scanSpec` taken at bound `width.toNat`. -/
theorem scanStartEnd_eq_scanSpec_width (width height : Int) (passages : List Coord) :
    scanStartEnd width height passages = scanSpec width height width.toNat passages := by
  rw [scanStartEnd, scanGo_eq, scanSpec]
  simp [List.range_eq_range']

/-- Extracting the start component of the bound-parameterized scan from
its underlying first-hit search. -/
theorem scanSpec_fst {width height : Int} {bound : Nat} {P : List Coord} {j : Nat}
    (h : (List.range bound).find? (fun j : Nat => isPassage P ⟨0, (j : Int)⟩) = some j) :
    (scanSpec width height bound P).1 = ⟨0, (j : Int)⟩ := by
  simp only [scanSpec, h]

/-- On a completed generator state — `Star` holds and the passage set is
in bounds — the code's width-bounded scan and the spec's height-bounded
scan coincide: the cascade lemmas place the first column-0 hit below the
width and the first bottom-row hit within the height, so each first-hit
search returns the same index under either bound. -/
theorem scan_eq_on_star {width height : Int} {P : List Coord}
    (hstar : Star width height P) (hw : 0 < width) (hh : 0 < height)
    (hPb : ∀ c ∈ P, InBounds width height c) :
    scanStartEnd width height P = scanSpec width height height.toNat P := by
  rw [scanStartEnd_eq_scanSpec_width]
  have hs : (List.range width.toNat).find? (fun j : Nat => isPassage P ⟨0, (j : Int)⟩)
      = (List.range height.toNat).find? (fun j : Nat => isPassage P ⟨0, (j : Int)⟩) := by
    cases hfind : (List.range height.toNat).find?
        (fun j : Nat => isPassage P ⟨0, (j : Int)⟩) with
    | none =>
      apply List.find?_eq_none.mpr
      intro j hj
      rw [List.mem_range] at hj
      by_cases hjh : j < height.toNat
      · exact List.find?_eq_none.mp hfind j (List.mem_range.mpr hjh)
      · intro habs
        have habs' : isPassage P ⟨0, (j : Int)⟩ = true := habs
        have hinb := hPb _ ((isPassage_iff_mem _ _).mp habs')
        rw [inBounds_mk_iff] at hinb
        omega
    | some j0 =>
      have hfind' : (List.range' 0 height.toNat).find?
          (fun j : Nat => isPassage P ⟨0, (j : Int)⟩) = some j0 := by
        rw [← List.range_eq_range']
        exact hfind
      obtain ⟨-, hj2, hj3, hj4⟩ :=
        find?_range'_some height.toNat 0 (fun j : Nat => isPassage P ⟨0, (j : Int)⟩) j0 hfind'
      have hj3' : isPassage P ⟨0, ((j0 : Nat) : Int)⟩ = true := hj3
      have hmin' : ∀ j : Int, 0 ≤ j → j < ((j0 : Nat) : Int) →
          isPassage P ⟨0, j⟩ = false := by
        intro j hjnn hjlt
        have hk : isPassage P ⟨0, ((j.toNat : Nat) : Int)⟩ = false :=
          hj4 j.toNat (by omega) (by omega)
        rw [show (⟨0, ((j.toNat : Nat) : Int)⟩ : Coord) = ⟨0, j⟩ from
          coord_mk_eq rfl (by omega)] at hk
        exact hk
      have hA : ((j0 : Nat) : Int) < width :=
        first_col_passage_lt_width hstar hw (by omega) (by omega) hj3' hmin'
      rw [List.range_eq_range']
      exact find?_range'_eq_some_of width.toNat 0
        (fun j : Nat => isPassage P ⟨0, (j : Int)⟩) j0 (by omega) (by omega) hj3 hj4
  have he : (List.range width.toNat).find?
        (fun j : Nat => isPassage P ⟨width - 1 - (j : Int), height - 1⟩)
      = (List.range height.toNat).find?
        (fun j : Nat => isPassage P ⟨width - 1 - (j : Int), height - 1⟩) := by
    cases hfind : (List.range width.toNat).find?
        (fun j : Nat => isPassage P ⟨width - 1 - (j : Int), height - 1⟩) with
    | none =>
      symm
      apply List.find?_eq_none.mpr
      intro j hj
      rw [List.mem_range] at hj
      by_cases hjw : j < width.toNat
      · exact List.find?_eq_none.mp hfind j (List.mem_range.mpr hjw)
      · intro habs
        have habs' : isPassage P ⟨width - 1 - (j : Int), height - 1⟩ = true := habs
        have hinb := hPb _ ((isPassage_iff_mem _ _).mp habs')
        rw [inBounds_mk_iff] at hinb
        omega
    | some i0 =>
      symm
      have hfind' : (List.range' 0 width.toNat).find?
          (fun j : Nat => isPassage P ⟨width - 1 - (j : Int), height - 1⟩) = some i0 := by
        rw [← List.range_eq_range']
        exact hfind
      obtain ⟨-, hi2, hi3, hi4⟩ :=
        find?_range'_some width.toNat 0
          (fun j : Nat => isPassage P ⟨width - 1 - (j : Int), height - 1⟩) i0 hfind'
      have hi3' : isPassage P ⟨width - 1 - ((i0 : Nat) : Int), height - 1⟩ = true := hi3
      have hmax' : ∀ x : Int, width - 1 - ((i0 : Nat) : Int) < x → x < width →
          isPassage P ⟨x, height - 1⟩ = false := by
        intro x hx1 hx2
        have hk : isPassage P
            ⟨width - 1 - (((width - 1 - x).toNat : Nat) : Int), height - 1⟩ = false :=
          hi4 (width - 1 - x).toNat (by omega) (by omega)
        rw [show (⟨width - 1 - (((width - 1 - x).toNat : Nat) : Int), height - 1⟩ : Coord)
            = ⟨x, height - 1⟩ from coord_mk_eq (by omega) rfl] at hk
        exact hk
      have hB : width - 1 - (width - 1 - ((i0 : Nat) : Int)) < height :=
        last_row_first_hit_lt_height hstar hh (by omega) (by omega) hi3' hmax'
      rw [List.range_eq_range']
      exact find?_range'_eq_some_of height.toNat 0
        (fun j : Nat => isPassage P ⟨width - 1 - (j : Int), height - 1⟩) i0
        (by omega) (by omega) hi3 hi4
  simp only [scanSpec]
  rw [hs, he]

/-- C2: for every generated maze — a completed run of the generator,
meaning the frontier loop has emptied its wall list, which is the only
way the source's `while` loop ever returns — the start and end
coordinates equal the lockstep first-hit scan bounded by the grid
height: start is the first `i < height` with `(0, i)` a passage, end the
first `i < height` with `(width-1-i, height-1)` a passage, each
defaulting to `(0, 0)`; and whenever column 0 contains a passage, the
start is the column-0 passage `(0, y)` of minimal `y`. The generator's
invariant that no remaining wall has exactly one passage neighbour
forces both first hits under both the width and the height bound, so the
code's width-bounded loop agrees with this height-bounded scan on every
generated maze. -/
theorem maze_start_end_height_bounded_scan
    (width height : Int) (rx ry : Nat) (idxs : List Nat) (fuel : Nat)
    (hw : 0 < width) (hh : 0 < height)
    (hdone : (primsLoopPair width height fuel
        [firstCellOf width height rx ry]
        (getCells width height (firstCellOf width height rx ry)) idxs).2 = []) :
    (((mazePrimsAlgorithm width height rx ry idxs fuel).start,
      (mazePrimsAlgorithm width height rx ry idxs fuel).endCoord)
        = scanSpec width height height.toNat (passagesOf width height rx ry idxs fuel))
    ∧ (∀ y : Int, 0 ≤ y →
        isPassage (passagesOf width height rx ry idxs fuel) ⟨0, y⟩ = true →
        (∀ j : Int, 0 ≤ j → j < y →
          isPassage (passagesOf width height rx ry idxs fuel) ⟨0, j⟩ = false) →
        (mazePrimsAlgorithm width height rx ry idxs fuel).start = ⟨0, y⟩) := by
  have hfst : (primsLoopPair width height fuel
      [firstCellOf width height rx ry]
      (getCells width height (firstCellOf width height rx ry)) idxs).1
      = passagesOf width height rx ry idxs fuel :=
    primsLoopPair_fst width height fuel _ _ idxs
  have hstar : Star width height (passagesOf width height rx ry idxs fuel) := by
    have h := star_of_completed
      (frontierInv_init width height (firstCellOf width height rx ry)) hdone
    rw [hfst] at h
    exact h
  have hPb : ∀ c ∈ passagesOf width height rx ry idxs fuel, InBounds width height c :=
    (passagesOf_passGood width height rx ry idxs fuel hw hh).2.1
  have hscan : scanStartEnd width height (passagesOf width height rx ry idxs fuel)
      = scanSpec width height height.toNat (passagesOf width height rx ry idxs fuel) :=
    scan_eq_on_star hstar hw hh hPb
  constructor
  · exact hscan
  · intro y hy hpass hmin
    have hyh : y < height := by
      have hinb := hPb _ ((isPassage_iff_mem _ _).mp hpass)
      rw [inBounds_mk_iff] at hinb
      omega
    have hfind : (List.range height.toNat).find?
        (fun j : Nat => isPassage (passagesOf width height rx ry idxs fuel) ⟨0, (j : Int)⟩)
        = some y.toNat := by
      rw [List.range_eq_range']
      apply find?_range'_eq_some_of height.toNat 0 _ y.toNat (by omega) (by omega)
      · show isPassage (passagesOf width height rx ry idxs fuel)
          ⟨0, ((y.toNat : Nat) : Int)⟩ = true
        rw [show (⟨0, ((y.toNat : Nat) : Int)⟩ : Coord) = ⟨0, y⟩ from
          coord_mk_eq rfl (by omega)]
        exact hpass
      · intro k hk1 hk2
        show isPassage (passagesOf width height rx ry idxs fuel)
          ⟨0, ((k : Nat) : Int)⟩ = false
        exact hmin (k : Int) (by omega) (by omega)
    have hstart : (mazePrimsAlgorithm width height rx ry idxs fuel).start
        = (scanSpec width height height.toNat
            (passagesOf width height rx ry idxs fuel)).1 :=
      congrArg Prod.fst hscan
    rw [hstart, scanSpec_fst hfind]
    exact coord_mk_eq rfl (by omega)

theorem maze_start_end_height_bounded_scan_witness :
    (0 : Int) < 2 ∧ (0 : Int) < 2
    ∧ (primsLoopPair 2 2 20 [firstCellOf 2 2 0 0]
        (getCells 2 2 (firstCellOf 2 2 0 0)) []).2 = []
    ∧ ((mazePrimsAlgorithm 2 2 0 0 [] 20).start,
        (mazePrimsAlgorithm 2 2 0 0 [] 20).endCoord)
        = scanSpec 2 2 (2 : Int).toNat (passagesOf 2 2 0 0 [] 20)
    ∧ (mazePrimsAlgorithm 2 2 0 0 [] 20).start = ⟨0, 0⟩ := by
  have hdone : (primsLoopPair 2 2 20 [firstCellOf 2 2 0 0]
      (getCells 2 2 (firstCellOf 2 2 0 0)) []).2 = [] := by decide
  have h := maze_start_end_height_bounded_scan 2 2 0 0 [] 20
    (by decide) (by decide) hdone
  refine ⟨by decide, by decide, hdone, h.1, ?_⟩
  exact h.2 0 le_rfl (by decide)
    (fun j h1 h2 => absurd (h1.trans_lt h2) (lt_irrefl 0))

/-- C7: in each iteration of the generation loop the frontier cell picked
at the random index is converted to a passage iff exactly one of its
bounds-clipped 4-neighbours is currently a passage; upon conversion
exactly its bounds-clipped neighbours that are still walls are appended
to the frontier (duplicates permitted), the picked cell is removed from
the frontier by its index whether or not it converted, and the loop
returns as soon as the frontier list is empty. -/
theorem primsStep_frontier_rule :
    (∀ (width height : Int) (passages wallList : List Coord) (idx : Nat) (wcell : Coord),
      wallList.get? idx = some wcell →
      (((getCells width height wcell).countP (fun cell => isPassage passages cell) = 1 →
        primsStep width height passages wallList idx =
          (wcell :: passages,
           wallList.eraseIdx idx ++
             (getCells width height wcell).filter
               (fun cell => !isPassage (wcell :: passages) cell)))
      ∧ ((getCells width height wcell).countP (fun cell => isPassage passages cell) ≠ 1 →
        primsStep width height passages wallList idx = (passages, wallList.eraseIdx idx))))
    ∧ (∀ (width height : Int) (fuel : Nat) (passages : List Coord) (idxs : List Nat),
        primsLoop width height (fuel + 1) passages [] idxs = passages) := by
  constructor
  · intro width height passages wallList idx wcell hget
    have hlt : idx < wallList.length := by
      rcases List.get?_eq_some.mp hget with ⟨h, _⟩
      exact h
    constructor
    · intro hcount
      simp only [primsStep, hget]
      rw [if_pos hcount, List.eraseIdx_append_of_lt_length hlt]
    · intro hcount
      simp only [primsStep, hget]
      rw [if_neg hcount]
  · intro width height fuel passages idxs
    simp [primsLoop]

theorem primsStep_frontier_rule_witness :
    primsStep 2 2 [⟨0, 0⟩] [⟨0, 1⟩] 0 = ([⟨0, 1⟩, ⟨0, 0⟩], [⟨1, 1⟩]) := by
  have h := (primsStep_frontier_rule.1 2 2 [⟨0, 0⟩] [⟨0, 1⟩] 0 ⟨0, 1⟩ rfl).1 (by decide)
  exact h.trans (by decide)

/-- C9 (counterexample): a call with `width = 0` is not rejected with the
`InvalidDimensions` condition — it ends in the `TypeError` crash instead,
after the grid has already been allocated. -/
theorem mazePrimsRun_invalidDimensions_counterexample :
    mazePrimsRun 0 5 0 0 [] 10 ≠ Except.error GenError.invalidDimensions
    ∧ mazePrimsRun 0 5 0 0 [] 10 = Except.error GenError.typeError := by
  have h2 : mazePrimsRun 0 5 0 0 [] 10 = Except.error GenError.typeError := rfl
  refine ⟨?_, h2⟩
  rw [h2]
  simp

/-- C9 (amended): the generator performs no dimension validation and never
produces an `InvalidDimensions` rejection: `width ≤ 0` crashes with a
`TypeError` when the first cell is marked, `width > 0` with
`height < 0` crashes with a `RangeError` while the grid is allocated
(and `height = 0` even returns a degenerate result); in the application
these cases are unreachable because the input handlers clamp both
dimensions to at least 5. -/
theorem mazePrimsRun_never_invalidDimensions :
    (∀ (width height : Int) (rx ry : Nat) (idxs : List Nat) (fuel : Nat),
      mazePrimsRun width height rx ry idxs fuel ≠ Except.error GenError.invalidDimensions)
    ∧ (∀ (width height : Int) (rx ry : Nat) (idxs : List Nat) (fuel : Nat),
        width ≤ 0 →
        mazePrimsRun width height rx ry idxs fuel = Except.error GenError.typeError)
    ∧ (∀ (width height : Int) (rx ry : Nat) (idxs : List Nat) (fuel : Nat),
        0 < width → height < 0 →
        mazePrimsRun width height rx ry idxs fuel = Except.error GenError.rangeError)
    ∧ (∀ value : Int, 5 ≤ handleWidthChange value ∧ 5 ≤ handleHeightChange value) := by
  refine ⟨?_, ?_, ?_, ?_⟩
  · intro width height rx ry idxs fuel
    unfold mazePrimsRun
    split_ifs <;> simp
  · intro width height rx ry idxs fuel hw
    unfold mazePrimsRun
    rw [if_pos hw]
  · intro width height rx ry idxs fuel hw hh
    unfold mazePrimsRun
    rw [if_neg (not_le.mpr hw), if_pos hh]
  · intro value
    exact ⟨le_max_left _ _, le_max_left _ _⟩

theorem mazePrimsRun_never_invalidDimensions_witness :
    mazePrimsRun 0 5 0 0 [] 10 = Except.error GenError.typeError
    ∧ mazePrimsRun 5 (-1) 0 0 [] 10 = Except.error GenError.rangeError :=
  ⟨mazePrimsRun_never_invalidDimensions.2.1 0 5 0 0 [] 10 (by decide),
   mazePrimsRun_never_invalidDimensions.2.2.1 5 (-1) 0 0 [] 10 (by decide) (by decide)⟩

/-- C8: every passage cell of a generated maze (every in-bounds cell not
in the returned wall list) is reachable from the random initial seed cell
through passage cells by 4-directional moves — the passage network is
connected to the seed, and cells the frontier process never converts stay
in the wall list. -/
theorem maze_passages_reachable_from_seed
    (width height : Int) (rx ry : Nat) (idxs : List Nat) (fuel : Nat) (c : Coord)
    (hwpos : 0 < width) (hhpos : 0 < height)
    (hin : InBounds width height c)
    (hnw : c ∉ (mazePrimsAlgorithm width height rx ry idxs fuel).finalWallList) :
    Reach (fun d => InBounds width height d
        ∧ d ∉ (mazePrimsAlgorithm width height rx ry idxs fuel).finalWallList)
      (firstCellOf width height rx ry) c := by
  have hwalls : (mazePrimsAlgorithm width height rx ry idxs fuel).finalWallList
      = finalWallListOf width height (passagesOf width height rx ry idxs fuel) := rfl
  have hseedin : InBounds width height (firstCellOf width height rx ry) := by
    show (0 : Int) ≤ ((rx % width.toNat : Nat) : Int)
      ∧ ((rx % width.toNat : Nat) : Int) < width
      ∧ (0 : Int) ≤ ((ry % height.toNat : Nat) : Int)
      ∧ ((ry % height.toNat : Nat) : Int) < height
    have hxm : rx % width.toNat < width.toNat := Nat.mod_lt _ (by omega)
    have hym : ry % height.toNat < height.toNat := Nat.mod_lt _ (by omega)
    refine ⟨by omega, by omega, by omega, by omega⟩
  have hPgood : PassGood width height (firstCellOf width height rx ry)
      (passagesOf width height rx ry idxs fuel) := by
    apply primsLoop_preserves
    · refine ⟨List.mem_singleton_self _, ?_, ?_⟩
      · intro d hd
        rw [List.mem_singleton] at hd
        rw [hd]
        exact hseedin
      · intro d hd
        rw [List.mem_singleton] at hd
        rw [hd]
        exact Reach.refl _
    · intro d hd
      exact (mem_getCells.mp hd).2
  obtain ⟨hseed, hbound, hreach⟩ := hPgood
  have hcP : c ∈ passagesOf width height rx ry idxs fuel := by
    rw [hwalls, mem_finalWallListOf] at hnw
    have hpc : isPassage (passagesOf width height rx ry idxs fuel) c = true := by
      cases hp : isPassage (passagesOf width height rx ry idxs fuel) c with
      | true => rfl
      | false => exact absurd ⟨hin, hp⟩ hnw
    exact (isPassage_iff_mem _ _).mp hpc
  have hequiv : ∀ d, d ∈ passagesOf width height rx ry idxs fuel →
      (InBounds width height d
        ∧ d ∉ (mazePrimsAlgorithm width height rx ry idxs fuel).finalWallList) := by
    intro d hd
    refine ⟨hbound d hd, ?_⟩
    rw [hwalls, mem_finalWallListOf]
    rintro ⟨_, hfalse⟩
    rw [(isPassage_iff_mem _ d).mpr hd] at hfalse
    cases hfalse
  exact reach_mono hequiv (hreach c hcP)

theorem maze_passages_reachable_from_seed_witness :
    (0 : Int) < 2 ∧ (0 : Int) < 2 ∧ InBounds 2 2 ⟨1, 0⟩
    ∧ (⟨1, 0⟩ : Coord) ∉ (mazePrimsAlgorithm 2 2 0 0 [] 20).finalWallList
    ∧ Reach (fun d => InBounds 2 2 d
        ∧ d ∉ (mazePrimsAlgorithm 2 2 0 0 [] 20).finalWallList) (firstCellOf 2 2 0 0) ⟨1, 0⟩ :=
  ⟨by decide, by decide, by decide, by decide,
   maze_passages_reachable_from_seed 2 2 0 0 [] 20 ⟨1, 0⟩ (by decide) (by decide)
     (by decide) (by decide)⟩

end Pathfinding
